import Mathlib

/-!
# Verification of the api-schema-mapper core

A shallow embedding of the JavaScript schema-mapping library: the value
utilities (`src/utils.js`), the normalizer (`src/normalizer.js`), the
denormalizer (`src/denormalizer.js`), the differ (`src/differ.js`), the
payload builder (`src/payloadBuilder.js`) and the `Mapper` facade
(`src/Mapper.js`), together with theorems settling the specification's
claims about them.

Modelling conventions:
* JavaScript values are the inductive `Value`: records are ordered
  association lists (JS objects preserve insertion order for the
  string keys used here), sequences are lists, and the scalars are
  strings, numbers, booleans, `null`, the explicit `undefined` marker
  and `Date` objects (carried as their millisecond timestamp).
* JS numbers are modelled as exact rationals: every number the claims
  exercise is a small integer, where float64 arithmetic is exact.
  `NaN` is outside the model.
* `===` on objects is reference equality in JS; the pure embedding uses
  structural equality.  For the differ this is observationally the same:
  structurally equal subtrees never contribute a change entry either way.
* Statements about JS exceptions (`TypeError` from writing through
  `undefined`, validator failures) are carried in `Except String`.
* The host timezone for `Date` parsing without an explicit offset is
  modelled as UTC.
-/

deriving instance DecidableEq for Except

namespace ApiSchemaMapper

/-- A JavaScript value tree as the library manipulates it: records
(insertion-ordered fields), sequences, and the scalar kinds, including
the explicit `undefined` absence marker and `Date` (as epoch milliseconds). -/
inductive Value where
  | undef : Value
  | null : Value
  | str : String → Value
  | num : ℚ → Value
  | bool : Bool → Value
  | date : Int → Value
  | arr : List Value → Value
  | obj : List (String × Value) → Value

mutual

/-- Structural equality of value trees (the model of `===`; see the header
note on reference equality). -/
def beqV : Value → Value → Bool
  | .undef, .undef => true
  | .null, .null => true
  | .str x, .str y => decide (x = y)
  | .num p, .num q => decide (p = q)
  | .bool x, .bool y => decide (x = y)
  | .date s, .date t => decide (s = t)
  | .arr xs, .arr ys => beqL xs ys
  | .obj fs, .obj gs => beqF fs gs
  | _, _ => false

/-- Elementwise `beqV` on sequences. -/
def beqL : List Value → List Value → Bool
  | [], [] => true
  | x :: xs, y :: ys => beqV x y && beqL xs ys
  | _, _ => false

/-- Fieldwise `beqV` on record field lists. -/
def beqF : List (String × Value) → List (String × Value) → Bool
  | [], [] => true
  | (k, v) :: fs, (l, w) :: gs => decide (k = l) && beqV v w && beqF fs gs
  | _, _ => false

end

mutual

theorem beqV_self : ∀ v : Value, beqV v v = true
  | .undef => rfl
  | .null => rfl
  | .str _ => by simp [beqV]
  | .num _ => by simp [beqV]
  | .bool _ => by simp [beqV]
  | .date _ => by simp [beqV]
  | .arr xs => by simpa [beqV] using beqL_self xs
  | .obj fs => by simpa [beqV] using beqF_self fs

theorem beqL_self : ∀ xs : List Value, beqL xs xs = true
  | [] => rfl
  | x :: xs => by simp [beqL, beqV_self x, beqL_self xs]

theorem beqF_self : ∀ fs : List (String × Value), beqF fs fs = true
  | [] => rfl
  | (_, v) :: fs => by simp [beqF, beqV_self v, beqF_self fs]

end

mutual

theorem beqV_sound : ∀ a b : Value, beqV a b = true → a = b
  | .undef, b, h => by cases b <;> simp_all [beqV]
  | .null, b, h => by cases b <;> simp_all [beqV]
  | .str _, b, h => by cases b <;> simp_all [beqV]
  | .num _, b, h => by cases b <;> simp_all [beqV]
  | .bool _, b, h => by cases b <;> simp_all [beqV]
  | .date _, b, h => by cases b <;> simp_all [beqV]
  | .arr xs, b, h => by
      cases b <;> simp_all [beqV]
      case arr ys => exact beqL_sound xs ys h
  | .obj fs, b, h => by
      cases b <;> simp_all [beqV]
      case obj gs => exact beqF_sound fs gs h

theorem beqL_sound : ∀ xs ys : List Value, beqL xs ys = true → xs = ys
  | [], [], _ => rfl
  | [], _ :: _, h => by simp [beqL] at h
  | _ :: _, [], h => by simp [beqL] at h
  | x :: xs, y :: ys, h => by
      simp only [beqL, Bool.and_eq_true] at h
      rw [beqV_sound x y h.1, beqL_sound xs ys h.2]

theorem beqF_sound : ∀ fs gs : List (String × Value), beqF fs gs = true → fs = gs
  | [], [], _ => rfl
  | [], _ :: _, h => by simp [beqF] at h
  | _ :: _, [], h => by simp [beqF] at h
  | (k, v) :: fs, (l, w) :: gs, h => by
      simp only [beqF, Bool.and_eq_true, decide_eq_true_eq] at h
      rw [h.1.1, beqV_sound v w h.1.2, beqF_sound fs gs h.2]

end

instance : DecidableEq Value := fun a b =>
  if h : beqV a b = true then .isTrue (beqV_sound a b h)
  else .isFalse (fun he => h (he ▸ beqV_self b))

namespace Value

/-- JS `typeof`: `Date`, arrays and `null` are all "object". -/
def typeOf : Value → String
  | .undef => "undefined"
  | .null => "object"
  | .str _ => "string"
  | .num _ => "number"
  | .bool _ => "boolean"
  | .date _ => "object"
  | .arr _ => "object"
  | .obj _ => "object"

/-- JS truthiness: `undefined`, `null`, `false`, `0`, and `""` are falsy. -/
def truthy : Value → Bool
  | .undef => false
  | .null => false
  | .bool b => b
  | .num q => decide (q ≠ 0)
  | .str s => decide (s ≠ "")
  | _ => true

/-- `Array.isArray`. -/
def isArr : Value → Bool
  | .arr _ => true
  | _ => false

/-- `isPlainObject` from `src/utils.js`:
`value !== null && typeof value === 'object' && !Array.isArray(value)`.
A `Date` passes this test, exactly as in JS. -/
def isPlainObject (v : Value) : Bool :=
  !(beqV v .null) && decide (v.typeOf = "object") && !v.isArr

end Value

open Value

/-- Digit-string parse of an array index key (the semantics of
`String.toNat?`, in a structurally recursive form the kernel can
evaluate). -/
def strToNat (s : String) : Option Nat :=
  if s.toList ≠ [] && s.toList.all (fun c => '0' ≤ c && c ≤ '9') then
    some (s.toList.foldl (fun n c => n * 10 + (c.toNat - '0'.toNat)) 0)
  else none

/-- Association-list lookup of an own property: fields of a record,
canonical index keys and `length` of an array; `undefined` otherwise. -/
def getField : Value → String → Value
  | .obj fs, k =>
      match fs.find? (fun kv => kv.1 = k) with
      | some kv => kv.2
      | none => .undef
  | .arr xs, k =>
      if k = "length" then .num xs.length
      else match strToNat k with
        | some i => if toString i = k then (xs.get? i).getD .undef else .undef
        | none => .undef
  | _, _ => (.undef)

/-- Property assignment `v[k] = x`: replaces the field in place (keeping
its position, as JS does) or appends it; array index assignment pads with
`undefined` holes; a silent no-op on primitives (sloppy mode). -/
def setField : Value → String → Value → Value
  | .obj fs, k, x =>
      if (fs.find? (fun kv => kv.1 = k)).isSome then
        .obj (fs.map (fun kv => if kv.1 = k then (k, x) else kv))
      else .obj (fs ++ [(k, x)])
  | .arr xs, k, x =>
      (match strToNat k with
        | some i =>
            if toString i = k then
              .arr ((xs ++ List.replicate (i + 1 - xs.length) Value.undef).set i x)
            else .arr xs
        | none => .arr xs)
  | v, _, _ => v

/-- The `for (const key in v)` enumeration (own enumerable properties):
fields of records, index keys of arrays and strings, nothing for scalars. -/
def forInPairs : Value → List (String × Value)
  | .obj fs => fs
  | .arr xs => xs.enum.map fun p => (toString p.1, p.2)
  | .str s => s.toList.enum.map fun p => (toString p.1, Value.str (String.mk [p.2]))
  | _ => []

/-- `Object.keys` / the key list of the `for..in` enumeration. -/
def ownKeys (v : Value) : List String := (forInPairs v).map Prod.fst

/-- Spread (`{...v}`) / `Object.assign` source fields: same own
enumerable properties as `forInPairs`. -/
def spreadFields : Value → List (String × Value) := forInPairs

/-- Build an object literal `{...fields, ...v}`: start from `fields` and
assign the spread source's properties over it in order. -/
def objLiteralSpread (fields : List (String × Value)) (v : Value) : Value :=
  (spreadFields v).foldl (fun acc kv => setField acc kv.1 kv.2) (.obj fields)

/-- `Object.assign(target, src)` for the root-path branch of
`setChangePath`. -/
def objAssign (target src : Value) : Value :=
  (spreadFields src).foldl (fun acc kv => setField acc kv.1 kv.2) target

/-! ## Character and string utilities

The JS code addresses nested fields with dotted path strings.  Splitting
and trimming are implemented on the character list so the path lemmas can
proceed by list induction. -/

/-- ASCII decimal digit. -/
def isDigitCh (c : Char) : Bool := '0' ≤ c && c ≤ '9'

/-- The whitespace `Number()` and `String.prototype.trim` strip (the
common code points; exotic Unicode spaces are outside the model). -/
def isJsWs (c : Char) : Bool :=
  c = ' ' || c = '\t' || c = '\n' || c = '\r' ||
  c = '\x0b' || c = '\x0c' || c = ' ' || c = '﻿'

/-- Strip leading and trailing JS whitespace from a character list. -/
def trimJs (cs : List Char) : List Char :=
  ((cs.dropWhile isJsWs).reverse.dropWhile isJsWs).reverse

/-- `String.prototype.trim`. -/
def trimStr (s : String) : String := String.mk (trimJs s.toList)

/-- `split('.')` on a character list: always at least one (possibly
empty) segment, exactly like the JS `String.prototype.split`. -/
def splitDotsCh : List Char → List (List Char)
  | [] => [[]]
  | c :: cs =>
      if c = '.' then [] :: splitDotsCh cs
      else match splitDotsCh cs with
        | [] => [[c]]
        | seg :: rest => (c :: seg) :: rest

/-- `path.split('.')` as the JS code performs it. -/
def splitDots (path : String) : List String :=
  (splitDotsCh path.toList).map String.mk

/-- Value of a list of decimal digit characters. -/
def digitsToNat (ds : List Char) : Nat :=
  ds.foldl (fun acc c => acc * 10 + (c.toNat - '0'.toNat)) 0

/-- The `^(.+)\[(\d+)\]$` probe of `setChangePath`, on a segment's
characters: the greedy `(.+)` makes the match use the final bracket
group, so scan from the right: a closing bracket, at least one digit, an
opening bracket, and a non-empty base. Returns the base and the parsed
index. -/
def parseBracket (seg : List Char) : Option (List Char × Nat) :=
  match seg.reverse with
  | ']' :: rest =>
      let ds := rest.takeWhile isDigitCh
      (match rest.drop ds.length with
        | '[' :: base =>
            if ds.isEmpty || base.isEmpty then none
            else some (base.reverse, digitsToNat ds.reverse)
        | _ => none)
  | _ => none

/-! ## `Number(string)` (the coercion probe of `coerceType`)

`coerceType` asks `!isNaN(value) && value.trim() !== ''` and then
`Number.isFinite(Number(value))`.  `Number(string)` trims, accepts the
empty remainder as `0`, the `Infinity` spellings, `0x`/`0o`/`0b`
non-decimal literals, and otherwise a strict decimal literal.  The value
is exact (`ℚ`); float rounding is outside the model. -/

/-- Result kind of `Number(string)`. -/
inductive JsNum where
  | fin : ℚ → JsNum
  | inf : JsNum
  | neginf : JsNum
  | nan : JsNum
deriving DecidableEq

/-- Digits of the given base (hex also accepts letters). -/
def digitVal (c : Char) : Option Nat :=
  let n := c.toNat
  if 48 ≤ n ∧ n ≤ 57 then some (n - 48)
  else if 97 ≤ n ∧ n ≤ 102 then some (n - 97 + 10)
  else if 65 ≤ n ∧ n ≤ 70 then some (n - 65 + 10)
  else none

/-- Parse a non-empty run of digits below `base`; the whole list must be
consumed. -/
def parseRadix (base : Nat) (cs : List Char) : Option Nat :=
  match cs with
  | [] => none
  | _ =>
    cs.foldlM (fun acc c =>
      match digitVal c with
      | some d => if d < base then some (acc * base + d) else none
      | none => none) 0

/-- Euclid's algorithm on explicit fuel (the kernel evaluates it, which
`Nat.gcd` resists). -/
def gcdAux : Nat → Nat → Nat → Nat
  | 0, _, b => b
  | fuel + 1, a, b => if a = 0 then b else gcdAux fuel (b % a) a

/-- Kernel-evaluable gcd. -/
def gcdE (a b : Nat) : Nat := gcdAux (a + 1) a b

theorem gcdAux_eq : ∀ (fuel a b : Nat), a < fuel → gcdAux fuel a b = Nat.gcd a b := by
  intro fuel
  induction fuel with
  | zero => intro a b h; exact absurd h (Nat.not_lt_zero a)
  | succ fuel ih =>
    intro a b h
    by_cases ha : a = 0
    · subst ha; simp [gcdAux, Nat.gcd_zero_left]
    · have hpos : 0 < a := Nat.pos_of_ne_zero ha
      have hlt : b % a < fuel := Nat.lt_of_lt_of_le (Nat.mod_lt b hpos) (Nat.lt_succ_iff.mp h)
      simp only [gcdAux, if_neg ha]
      rw [ih (b % a) a hlt]
      exact (Nat.gcd_rec a b).symm

theorem gcdE_eq (a b : Nat) : gcdE a b = Nat.gcd a b :=
  gcdAux_eq (a + 1) a b (Nat.lt_succ_self a)

/-- The rational `num / den`, built through the kernel-evaluable gcd
(`Rat.normalize` itself is stuck under the kernel). -/
def ratNormalize (num : Int) (den : Nat) (h : den ≠ 0) : ℚ :=
  Rat.maybeNormalize num den (gcdE num.natAbs den)
    (Rat.normalize.den_nz h (gcdE_eq num.natAbs den))
    (Rat.normalize.reduced h (gcdE_eq num.natAbs den))

/-- The rational of a natural number, kernel-evaluable (the `Nat.cast`
path is stuck under the kernel). -/
def ratOfNat (n : Nat) : ℚ := Rat.ofInt (Int.ofNat n)

theorem ratOfNat_eq_cast (n : Nat) : ratOfNat n = (n : ℚ) := by
  show ((n : Int) : ℚ) = (n : ℚ)
  exact Int.cast_natCast n

/-- A strict decimal literal `[+-]? (digits [. digits?] | . digits) ([eE][+-]?digits)?`,
whole-list; returns its exact rational value
`[-] digits(intDs ++ fracDs) * 10 ^ (exp10 - |fracDs|)`. -/
def parseDecimalCore (cs : List Char) : Option ℚ :=
  let (neg, cs) :=
    match cs with
    | '+' :: rest => (false, rest)
    | '-' :: rest => (true, rest)
    | _ => (false, cs)
  let intDs := cs.takeWhile isDigitCh
  let afterInt := cs.drop intDs.length
  let (fracDs, afterFrac) :=
    match afterInt with
    | '.' :: rest => (rest.takeWhile isDigitCh, (rest.drop (rest.takeWhile isDigitCh).length))
    | _ => ([], afterInt)
  if intDs.isEmpty && fracDs.isEmpty then none
  else
    let decVal : Int → ℚ := fun exp10 =>
      let e : Int := exp10 - fracDs.length
      let mag : ℚ :=
        if 0 ≤ e then ratOfNat (digitsToNat (intDs ++ fracDs) * 10 ^ e.toNat)
        else ratNormalize (digitsToNat (intDs ++ fracDs)) (10 ^ (-e).toNat)
          (Nat.pow_pos (by decide)).ne'
      if neg then -mag else mag
    match afterFrac with
    | [] => some (decVal 0)
    | e :: rest =>
        if e = 'e' || e = 'E' then
          let (eneg, rest2) :=
            match rest with
            | '+' :: r => (false, r)
            | '-' :: r => (true, r)
            | _ => (false, rest)
          let eds := rest2.takeWhile isDigitCh
          if eds.isEmpty || !(rest2.drop eds.length).isEmpty then none
          else some (decVal (if eneg then -(digitsToNat eds : Int) else (digitsToNat eds : Int)))
        else none

/-- `Number(string)` on the already-trimmed character list (an empty
remainder is `0`). -/
def parseJsNum (cs : List Char) : JsNum :=
  if cs = [] then .fin 0
  else if cs = "Infinity".toList || cs = "+Infinity".toList then .inf
  else if cs = "-Infinity".toList then .neginf
  else match cs with
    | '0' :: x :: rest =>
        if x = 'x' || x = 'X' then (parseRadix 16 rest).elim .nan (fun n => .fin n)
        else if x = 'o' || x = 'O' then (parseRadix 8 rest).elim .nan (fun n => .fin n)
        else if x = 'b' || x = 'B' then (parseRadix 2 rest).elim .nan (fun n => .fin n)
        else (parseDecimalCore cs).elim .nan .fin
    | _ => (parseDecimalCore cs).elim .nan .fin

/-- `Number(string)`. -/
def jsParseNumber (s : String) : JsNum := parseJsNum (trimJs s.toList)

/-! ## Dates

`coerceType` probes `/^\d{4}-\d{2}-\d{2}T/` and then `new Date(value)`.
The ISO date-time forms are modelled exactly (proleptic Gregorian, via
the standard civil-date conversions); the legacy non-ISO fallback parser
is modelled as failure, and a date-time without an offset is taken as
UTC (the host timezone is modelled as UTC). -/

/-- Days from the epoch 1970-01-01 of a civil date (proleptic Gregorian). -/
def daysFromCivil (y : Int) (m d : Nat) : Int :=
  let yAdj : Int := if m ≤ 2 then y - 1 else y
  let era : Int := Int.fdiv yAdj 400
  let yoe : Int := yAdj - era * 400
  let mp : Int := if m > 2 then (m : Int) - 3 else (m : Int) + 9
  let doy : Int := (153 * mp + 2) / 5 + (d : Int) - 1
  let doe : Int := yoe * 365 + yoe / 4 - yoe / 100 + doy
  era * 146097 + doe - 719468

/-- Civil date (year, month, day) of a day count from the epoch. -/
def civilFromDays (z0 : Int) : Int × Nat × Nat :=
  let z : Int := z0 + 719468
  let era : Int := Int.fdiv z 146097
  let doe : Nat := (z - era * 146097).toNat
  let yoe : Nat := (doe - doe / 1460 + doe / 36524 - doe / 146096) / 365
  let doy : Nat := doe - (365 * yoe + yoe / 4 - yoe / 100)
  let mp : Nat := (5 * doy + 2) / 153
  let d : Nat := doy - (153 * mp + 2) / 5 + 1
  let m : Nat := if mp < 10 then mp + 3 else mp - 9
  (era * 400 + yoe + (if m ≤ 2 then 1 else 0), m, d)

/-- Gregorian leap year. -/
def isLeapYear (y : Int) : Bool :=
  y % 4 = 0 && (y % 100 ≠ 0 || y % 400 = 0)

/-- Days in a month. -/
def daysInMonth (y : Int) (m : Nat) : Nat :=
  if m = 2 then (if isLeapYear y then 29 else 28)
  else if m = 4 || m = 6 || m = 9 || m = 11 then 30 else 31

/-- The regex probe `/^\d{4}-\d{2}-\d{2}T/.test(value)`. -/
def isoTest (s : String) : Bool :=
  match s.toList with
  | a :: b :: c :: d :: '-' :: e :: f :: '-' :: g :: h :: 'T' :: _ =>
      isDigitCh a && isDigitCh b && isDigitCh c && isDigitCh d &&
      isDigitCh e && isDigitCh f && isDigitCh g && isDigitCh h
  | _ => false

/-- Two-digit number from its characters, when both are digits. -/
def twoDigits (a b : Char) : Option Nat :=
  if isDigitCh a && isDigitCh b then some (digitsToNat [a, b]) else none

/-- The trailing time-zone designator: none (UTC in this model), `Z`, or
`±HH:MM`; returns the offset in minutes. -/
def parseTzTail : List Char → Option Int
  | [] => some 0
  | ['Z'] => some 0
  | [sgn, h1, h2, ':', m1, m2] =>
      if sgn = '+' || sgn = '-' then
        match twoDigits h1 h2, twoDigits m1 m2 with
        | some hh, some mm =>
            if hh ≤ 23 && mm ≤ 59 then
              some ((if sgn = '-' then -1 else 1) * ((hh : Int) * 60 + mm))
            else none
        | _, _ => none
      else none
  | _ => none

/-- Milliseconds past the hour-and-minute, with the time-zone tail:
`(":" ss ("." fff)?)? tz`. -/
def parseSecondsTail : List Char → Option (Nat × Int)
  | ':' :: s1 :: s2 :: rest =>
      (twoDigits s1 s2).bind fun ss =>
        if ss ≤ 59 then
          match rest with
          | '.' :: f1 :: f2 :: f3 :: rest2 =>
              if isDigitCh f1 && isDigitCh f2 && isDigitCh f3 then
                (parseTzTail rest2).map fun off => (ss * 1000 + digitsToNat [f1, f2, f3], off)
              else none
          | _ => (parseTzTail rest).map fun off => (ss * 1000, off)
        else none
  | rest => (parseTzTail rest).map fun off => (0, off)

/-- `new Date(value).getTime()` for the ISO date-time forms: `none` is an
invalid date. -/
def jsDateParse (s : String) : Option Int :=
  match s.toList with
  | y1 :: y2 :: y3 :: y4 :: '-' :: m1 :: m2 :: '-' :: d1 :: d2 :: 'T' :: rest =>
      if isDigitCh y1 && isDigitCh y2 && isDigitCh y3 && isDigitCh y4 then
        match twoDigits m1 m2, twoDigits d1 d2 with
        | some mo, some da =>
            (match rest with
             | h1 :: h2 :: ':' :: mi1 :: mi2 :: rest2 =>
                 match twoDigits h1 h2, twoDigits mi1 mi2 with
                 | some hh, some mi =>
                     (parseSecondsTail rest2).bind fun p =>
                       let y : Int := digitsToNat [y1, y2, y3, y4]
                       if 1 ≤ mo && mo ≤ 12 && 1 ≤ da && da ≤ daysInMonth y mo &&
                          mi ≤ 59 && (hh ≤ 23 || (hh = 24 && mi = 0 && p.1 = 0)) then
                         some (daysFromCivil y mo da * 86400000 +
                           (hh : Int) * 3600000 + (mi : Int) * 60000 + (p.1 : Int) -
                           p.2 * 60000)
                       else none
                 | _, _ => none
             | _ => none)
        | _, _ => none
      else none
  | _ => none

/-- Left-pad a natural number with zeros to the given width. -/
def padNat (width n : Nat) : String :=
  let s := toString n
  String.mk (List.replicate (width - s.length) '0') ++ s

/-- `Date.prototype.toISOString` (used by `JSON.stringify` via `toJSON`). -/
def toISOString (t : Int) : String :=
  let days := Int.fdiv t 86400000
  let msOfDay := (t - days * 86400000).toNat
  let c := civilFromDays days
  let y := c.1
  let yearStr :=
    if 0 ≤ y && y ≤ 9999 then padNat 4 y.toNat
    else if y < 0 then "-" ++ padNat 6 (-y).toNat
    else "+" ++ padNat 6 y.toNat
  yearStr ++ "-" ++ padNat 2 c.2.1 ++ "-" ++ padNat 2 c.2.2 ++ "T" ++
    padNat 2 (msOfDay / 3600000) ++ ":" ++ padNat 2 (msOfDay / 60000 % 60) ++ ":" ++
    padNat 2 (msOfDay / 1000 % 60) ++ "." ++ padNat 3 (msOfDay % 1000) ++ "Z"

/-! ## `JSON.stringify`

`isEqual` (and `hasChanges`, and the differ's shallow array comparison)
compare `JSON.stringify` serializations.  `undefined` at the top level
serializes to nothing (`none`); inside an object its key is dropped;
inside an array it prints as `null`. -/

/-- One character of a JSON string literal. -/
def escapeJsonChar (c : Char) : String :=
  if c = '"' then "\\\""
  else if c = '\\' then "\\\\"
  else if c = '\x08' then "\\b"
  else if c = '\t' then "\\t"
  else if c = '\n' then "\\n"
  else if c = '\x0c' then "\\f"
  else if c = '\r' then "\\r"
  else if c.toNat < 32 then
    let hx := String.mk (Nat.toDigits 16 c.toNat)
    "\\u" ++ String.mk (List.replicate (4 - hx.length) '0') ++ hx
  else String.mk [c]

/-- A JSON string literal. -/
def quoteJson (s : String) : String :=
  "\"" ++ String.join (s.toList.map escapeJsonChar) ++ "\""

/-- Number of times `p` divides `n` (with the cofactor); fueled. -/
def stripFactor (p : Nat) : Nat → Nat → Nat × Nat
  | 0, n => (0, n)
  | fuel + 1, n =>
      if n % p = 0 && n ≠ 0 && p > 1 then
        let r := stripFactor p fuel (n / p)
        (r.1 + 1, r.2)
      else (0, n)

/-- JS number-to-string: integers print as integers; non-integers with a
decimal-power denominator print as their exact finite decimal (which is
how every number reachable from string coercion prints); any other
rational — unreachable from the embedded code paths — is rendered as a
fraction, which keeps the serialization injective. -/
def numToString (q : ℚ) : String :=
  if q.den = 1 then toString q.num
  else
    let n2 := stripFactor 2 q.den q.den
    let n5 := stripFactor 5 n2.2 n2.2
    if n5.2 = 1 then
      let k := max n2.1 n5.1
      let scaled := q.num.natAbs * 10 ^ k / q.den
      let whole := scaled / 10 ^ k
      let fracDigits := (padNat k (scaled % 10 ^ k)).toList
      let fracTrimmed := (fracDigits.reverse.dropWhile (· = '0')).reverse
      (if q.num < 0 then "-" else "") ++ toString whole ++ "." ++ String.mk fracTrimmed
    else toString q.num ++ "/" ++ toString q.den

mutual

/-- Size of a value tree (recursion fuel for the tree-walking functions;
one unit per node, so a fuel of `vsize v` always outlasts the walk). -/
def vsize : Value → Nat
  | .arr xs => 1 + lsizeV xs
  | .obj fs => 1 + fsizeV fs
  | _ => 1

/-- Size of a sequence's elements. -/
def lsizeV : List Value → Nat
  | [] => 0
  | x :: xs => 1 + vsize x + lsizeV xs

/-- Size of a record's fields. -/
def fsizeV : List (String × Value) → Nat
  | [] => 0
  | (_, v) :: fs => 1 + vsize v + fsizeV fs

end

/-- `JSON.stringify`, fueled on the tree size. -/
def jsonStringifyF : Nat → Value → Option String
  | 0, _ => none
  | fuel + 1, v =>
      match v with
      | .undef => none
      | .null => some "null"
      | .bool b => some (cond b "true" "false")
      | .num q => some (numToString q)
      | .str s => some (quoteJson s)
      | .date t => some (quoteJson (toISOString t))
      | .arr xs =>
          some ("[" ++ String.intercalate ","
            (xs.map fun x => (jsonStringifyF fuel x).getD "null") ++ "]")
      | .obj fs =>
          some ("\x7b" ++ String.intercalate ","
            (fs.filterMap fun kv =>
              (jsonStringifyF fuel kv.2).map fun sv => quoteJson kv.1 ++ ":" ++ sv) ++ "\x7d")

/-- `JSON.stringify(v)`; `none` is JS `undefined`. -/
def jsonStringify (v : Value) : Option String := jsonStringifyF (vsize v + 1) v

/-! ## Value utilities (`src/utils.js`) -/

/-- The loop body of `getNestedValue`: returns `undefined` as soon as an
intermediate is `null`/`undefined`; property access on other kinds is
`getField`. -/
def getNestedGo : Value → List String → Value
  | cur, [] => cur
  | cur, k :: rest =>
      match cur with
      | .undef => .undef
      | .null => .undef
      | _ => getNestedGo (getField cur k) rest

/-- `getNestedValue(obj, path)`: dotted traversal. -/
def getNestedValue (v : Value) (path : String) : Value :=
  getNestedGo v (splitDots path)

/-- The loop of `setNestedValue`: forces each intermediate that is falsy
or not a plain object to `{}`, then assigns the last segment.  (Its
callers always hand it a record accumulator, so the primitive no-op
cases of `setField` are unreachable from the library's own call sites.) -/
def setNestedGo : Value → List String → Value → Value
  | cur, [], _ => cur
  | cur, [last], x => setField cur last x
  | cur, k :: rest, x =>
      let w := getField cur k
      let w' := if truthy w && isPlainObject w then w else .obj []
      setField cur k (setNestedGo w' rest x)

/-- `setNestedValue(obj, path, value)` from `src/utils.js`. -/
def setNestedValue (v : Value) (path : String) (x : Value) : Value :=
  setNestedGo v (splitDots path) x

/-- One `(key, value)` step of `invertMapping`'s recursive `invert`
(`invert({key: value}, target)` runs its loop exactly once, so the
top-level loop and the recursive call share this body).  A leaf
`key → name` emits `target[name] = key`; a nested record emits
`target[name] = key + "." + nestedKey` for its string leaves, seeds
`target[nestedKey] = {}` for deeper records and recurses on them —
dropping the accumulated prefix, exactly as the source does. -/
def invertGo : Nat → String → Value → Value → Value
  | 0, _, _, target => target
  | fuel + 1, key, value, target =>
      if isPlainObject value then
        (forInPairs value).foldl (fun target kv =>
          match kv.2 with
          | .str s => setField target s (.str (key ++ "." ++ kv.1))
          | nv =>
              if isPlainObject nv then
                let target := if truthy (getField target kv.1) then target
                  else setField target kv.1 (.obj [])
                invertGo fuel kv.1 nv target
              else target) target
      else
        match value with
        | .str s => setField target s (.str key)
        | _ => target

/-- `invertMapping(mapping)` from `src/utils.js`. -/
def invertMapping (mapping : Value) : Value :=
  (forInPairs mapping).foldl (fun target kv => invertGo (vsize mapping + 1) kv.1 kv.2 target)
    (.obj [])

/-- `deepMerge(target, source)` (fueled): start from `{...target}`,
recurse where both sides hold plain objects at a key, otherwise the
source entry replaces the target's. -/
def deepMergeF : Nat → Value → Value → Value
  | 0, target, _ => target
  | fuel + 1, target, source =>
      (forInPairs source).foldl (fun res kv =>
        let rv := getField res kv.1
        if isPlainObject kv.2 && isPlainObject rv then
          setField res kv.1 (deepMergeF fuel rv kv.2)
        else setField res kv.1 kv.2) (.obj (spreadFields target))

/-- `deepMerge(target, source)` from `src/utils.js`. -/
def deepMerge (target source : Value) : Value :=
  deepMergeF (vsize source + 1) target source

/-! ## Normalizer (`src/normalizer.js`) -/

/-- `source?.[key]` (optional chaining). -/
def optChain (v : Value) (k : String) : Value :=
  match v with
  | .undef => .undef
  | .null => .undef
  | _ => getField v k

/-- The caller-supplied per-field transforms (`transform[formKey]`): a
finite table of pure binary functions `(value, source) => value`. -/
def lookupTransform (ts : List (String × (Value → Value → Value))) (k : String) :
    Option (Value → Value → Value) :=
  (ts.find? (fun p => p.1 = k)).map Prod.snd

/-- `coerceType(value)` from `src/normalizer.js`: only strings are
probed; a finite `Number(value)` (with non-blank trim) wins first, then
exactly `"true"`/`"false"`, then an ISO date-time prefix that parses to
a valid timestamp; anything else is returned unchanged. -/
def coerceType (value : Value) : Value :=
  match value with
  | .str s =>
      (match jsParseNumber s with
       | .fin q =>
           if trimStr s ≠ "" then .num q
           else coerceTypeRest s
       | _ => coerceTypeRest s)
  | v => v
where
  coerceTypeRest (s : String) : Value :=
    if s = "true" then .bool true
    else if s = "false" then .bool false
    else if isoTest s then
      match jsDateParse s with
      | some t => .date t
      | none => .str s
    else .str s

/-- Options of `normalize` (its destructured defaults). -/
structure NormalizeOptions where
  typeCoercion : Bool := true
  defaultValues : Value := .obj []
  transform : List (String × (Value → Value → Value)) := []

/-- The recursive `processMapping(source, mappingSchema)` of `normalize`,
threading the `formData` accumulator it closes over.  The string-leaf
branch writes through `setNestedValue`; the nested branch recurses only
when the source holds a plain object; the array branch maps the source
elements — note that its `processMapping(item, itemMapping)` writes into
the outer `formData` (not into the freshly allocated `normalized`, which
stays `{}`), exactly as the source does. -/
def processMapping :
    Nat → Value → Value → Value → NormalizeOptions → Value
  | 0, formData, _, _, _ => formData
  | fuel + 1, formData, source, schema, opts =>
      (forInPairs schema).foldl (fun formData kv =>
        let apiKey := kv.1
        let mappingValue := kv.2
        let sourceValue := optChain source apiKey
        match mappingValue with
        | .str formKey =>
            let value := sourceValue
            let value :=
              match lookupTransform opts.transform formKey with
              | some f => f value source
              | none => value
            let value :=
              if opts.typeCoercion && value ≠ .null && value ≠ .undef then coerceType value
              else value
            if value ≠ .undef then setNestedValue formData formKey value else formData
        | _ =>
            if isPlainObject mappingValue then
              if isPlainObject sourceValue then
                processMapping fuel formData sourceValue mappingValue opts
              else formData
            else
              match mappingValue, sourceValue with
              | .arr mxs, .arr sxs =>
                  let itemMapping := mxs.headD .undef
                  let step := sxs.foldl (fun (p : Value × List Value) item =>
                    if isPlainObject itemMapping then
                      (processMapping fuel p.1 item itemMapping opts, Value.obj [] :: p.2)
                    else (p.1, item :: p.2)) (formData, [])
                  setField step.1 apiKey (.arr step.2.reverse)
              | _, _ => formData) formData

/-- `normalize(apiData, mapping, options)` from `src/normalizer.js`:
the output starts as the shallow copy `{...defaultValues}`. -/
def normalize (apiData mapping : Value) (opts : NormalizeOptions) : Value :=
  processMapping (vsize mapping + 1) (.obj (spreadFields opts.defaultValues)) apiData mapping opts

/-! ## Denormalizer (`src/denormalizer.js`) -/

/-- Options of `denormalize` (its destructured defaults). -/
structure DenormalizeOptions where
  omitUndefined : Bool := true
  omitNull : Bool := false
  transform : List (String × (Value → Value → Value)) := []

/-- `denormalize(formData, mapping, options)`: invert the mapping, then
per inverted entry read the form value, apply the omission rules, the
transform, and write through the dotted API path.  A non-string inverted
entry (the `{}` placeholders `invertMapping` leaves behind for deep
nestings) raises `TypeError` when it survives omission, as
`apiPath.includes` does in JS. -/
def denormalize (formData mapping : Value) (opts : DenormalizeOptions) :
    Except String Value :=
  let formToApi := invertMapping mapping
  (forInPairs formToApi).foldlM (fun apiPayload kv => do
    let formKey := kv.1
    let value := getNestedValue formData formKey
    if opts.omitUndefined && value = .undef then pure apiPayload
    else if opts.omitNull && value = .null then pure apiPayload
    else
      let value :=
        match lookupTransform opts.transform formKey with
        | some f => f value formData
        | none => value
      match kv.2 with
      | .str apiPath =>
          if apiPath.toList.contains '.' then pure (setNestedValue apiPayload apiPath value)
          else pure (setField apiPayload apiPath value)
      | _ => throw "TypeError: apiPath.includes is not a function")
    (.obj [])

/-- `denormalizeForPost`: full replacement, never omit. -/
def denormalizeForPost (formData mapping : Value) (opts : DenormalizeOptions) :
    Except String Value :=
  denormalize formData mapping { opts with omitUndefined := false, omitNull := false }

/-- `denormalizeForPatch`: omit absent fields. -/
def denormalizeForPatch (formData mapping : Value) (opts : DenormalizeOptions) :
    Except String Value :=
  denormalize formData mapping { opts with omitUndefined := true, omitNull := false }

/-! ## Differ (`src/differ.js`) -/

/-- Options of `diff` (its destructured defaults; `deep` is destructured
by the source but never read). -/
structure DiffOptions where
  compareArrays : Bool := true
  deep : Bool := true
  ignoreFields : List String := []

/-- The descent of `setChangePath` over the dot-split segments.  Each
intermediate segment is probed with the bracket regex; missing or falsy
intermediates are forced to `[]`/`{}` where the current node can carry
properties, and — as in JS — descending through a primitive re-reads
`undefined` and the next touch raises `TypeError`. -/
def scpGo : Value → List String → Value → Except String Value
  | cur, [], _ => .ok cur
  | cur, [last], x =>
      match cur with
      | .undef => .error "TypeError"
      | .null => .error "TypeError"
      | _ => .ok (setField cur last x)
  | cur, key :: rest, x =>
      match cur with
      | .undef => .error "TypeError"
      | .null => .error "TypeError"
      | _ =>
        match parseBracket key.toList with
        | some br =>
            let arrayKey := String.mk br.1
            let idxKey := toString br.2
            let cur₁ := if truthy (getField cur arrayKey) then cur
              else setField cur arrayKey (.arr [])
            let a₁ := getField cur₁ arrayKey
            let a₂ := if truthy (getField a₁ idxKey) then a₁
              else setField a₁ idxKey (.obj [])
            let cur₂ := setField cur₁ arrayKey a₂
            do
              let e ← scpGo (getField (getField cur₂ arrayKey) idxKey) rest x
              pure (setField cur₂ arrayKey (setField (getField cur₂ arrayKey) idxKey e))
        | none =>
            let cur₁ := if truthy (getField cur key) then cur
              else setField cur key (.obj [])
            do
              let v ← scpGo (getField cur₁ key) rest x
              pure (setField cur₁ key v)

/-- `setChangePath(obj, path, value)` from `src/differ.js`: the empty
path merges the value's own properties into the accumulator
(`Object.assign`); otherwise descend the dot-split segments. -/
def setChangePath (changes : Value) (path : String) (x : Value) : Except String Value :=
  if path = "" then .ok (objAssign changes x)
  else scpGo changes (splitDots path) x

/-- The recursive `computeDiff(oldVal, newVal, path)` of `diff`,
threading the `changes` accumulator.  Branch order follows the source:
ignored path, strict equality, changed `typeof`, primitives, arrays
(shallow JSON comparison when `compareArrays` is off; whole-replacement
on length or kind mismatch; per-index recursion otherwise), then plain
objects (per-key recursion plus explicit `undefined` entries for deleted
keys). -/
def computeDiff (compareArrays : Bool) (ignoreFields : List String) :
    Nat → Value → Value → String → Value → Except String Value
  | 0, _, _, _, changes => .ok changes
  | fuel + 1, oldVal, newVal, path, changes =>
      if ignoreFields.contains path then .ok changes
      else if oldVal = newVal then .ok changes
      else if typeOf oldVal ≠ typeOf newVal then setChangePath changes path newVal
      else if typeOf newVal ≠ "object" || newVal = .null then
        (if oldVal ≠ newVal then setChangePath changes path newVal else .ok changes)
      else
        match newVal with
        | .arr newXs =>
            if !compareArrays then
              (if jsonStringify oldVal ≠ jsonStringify newVal then
                setChangePath changes path newVal
              else .ok changes)
            else
              match oldVal with
              | .arr oldXs =>
                  if oldXs.length ≠ newXs.length then setChangePath changes path newVal
                  else
                    newXs.enum.foldlM (fun changes p =>
                      let itemPath :=
                        if path ≠ "" then path ++ "[" ++ toString p.1 ++ "]"
                        else "[" ++ toString p.1 ++ "]"
                      computeDiff compareArrays ignoreFields fuel
                        ((oldXs.get? p.1).getD .undef) p.2 itemPath changes) changes
              | _ => setChangePath changes path newVal
        | _ =>
            if isPlainObject newVal then
              if !isPlainObject oldVal then setChangePath changes path newVal
              else do
                let changes ← (forInPairs newVal).foldlM (fun changes kv =>
                  let newPath := if path ≠ "" then path ++ "." ++ kv.1 else kv.1
                  computeDiff compareArrays ignoreFields fuel
                    (optChain oldVal kv.1) kv.2 newPath changes) changes
                (ownKeys oldVal).foldlM (fun changes key =>
                  if (ownKeys newVal).contains key then pure changes
                  else
                    let newPath := if path ≠ "" then path ++ "." ++ key else key
                    setChangePath changes newPath .undef) changes
            else .ok changes

/-- `diff(original, current, options)` from `src/differ.js`. -/
def diff (original current : Value) (opts : DiffOptions) : Except String Value :=
  computeDiff opts.compareArrays opts.ignoreFields (vsize current + 1)
    original current "" (.obj [])

/-- `isEqual(obj1, obj2)`: comparison of the JSON serializations. -/
def isEqual (a b : Value) : Bool := jsonStringify a = jsonStringify b

/-- `hasChanges(original, current)`. -/
def hasChanges (original current : Value) : Bool := !isEqual original current

/-! ## Payload builder (`src/payloadBuilder.js`) -/

/-- Options of the payload builders: the per-field transforms and the
optional validator returning `(valid, errors)`. -/
structure BuildOptions where
  transform : List (String × (Value → Value → Value)) := []
  validation : Option (Value → Bool × List String) := none

/-- `buildPatchPayload(initialForm, currentForm, mapping, options)`:
the no-payload sentinel (`none`, JS `null`) when `hasChanges` sees equal
serializations; otherwise diff, validate the change tree, denormalize it
under patch omission rules, and return the sentinel again when nothing
mapped survives. -/
def buildPatchPayload (initialForm currentForm mapping : Value) (opts : BuildOptions) :
    Except String (Option Value) :=
  if !hasChanges initialForm currentForm then .ok none
  else
    (diff initialForm currentForm {}).bind fun changes =>
      let proceed : Except String (Option Value) :=
        (denormalizeForPatch changes mapping { transform := opts.transform }).map
          fun payload => if (ownKeys payload).length > 0 then some payload else none
      match opts.validation with
      | some f =>
          if (f changes).1 then proceed
          else .error ("Validation failed: " ++ String.intercalate ", " (f changes).2)
      | none => proceed

/-! ## The `Mapper` facade (`src/Mapper.js`)

The configuration's `transforms` and `validator` entries are caller
functions; the model carries the four value-shaped entries
(`apiToForm`, `formToApi`, `defaults`, `options`), which are the ones
the claims compare. -/

/-- A constructed handle. -/
structure Mapper where
  apiToFormMapping : Value
  formToApiMapping : Value
  defaults : Value
  options : Value
deriving DecidableEq

/-- The constructor's built-in option defaults. -/
def mapperDefaultOptions : List (String × Value) :=
  [("typeCoercion", .bool true), ("omitUndefined", .bool true),
   ("omitNull", .bool false), ("compareArrays", .bool true)]

/-- Destructuring with a default: the default applies exactly when the
property is `undefined`. -/
def getFieldD (config : Value) (k : String) (d : Value) : Value :=
  match getField config k with
  | .undef => d
  | v => v

/-- The `Mapper` constructor: rejects a missing/empty `apiToForm`
mapping, derives `formToApi` by inversion unless a truthy one is given,
and spreads the caller's `options` over the built-in defaults. -/
def mkMapper (config : Value) : Except String Mapper :=
  let apiToForm := getFieldD config "apiToForm" (.obj [])
  if !truthy apiToForm || (ownKeys apiToForm).length = 0 then
    .error "Mapper requires apiToForm mapping configuration"
  else
    let formToApi := getFieldD config "formToApi" .null
    .ok {
      apiToFormMapping := apiToForm
      formToApiMapping := if truthy formToApi then formToApi else invertMapping apiToForm
      defaults := getFieldD config "defaults" (.obj [])
      options := objLiteralSpread mapperDefaultOptions (getFieldD config "options" (.obj [])) }

/-- `Mapper.prototype.clone(config)`: re-run the constructor on the
object literal that spreads the overrides over the current
configuration's entries. -/
def Mapper.clone (m : Mapper) (config : Value) : Except String Mapper :=
  mkMapper (objLiteralSpread
    [("apiToForm", m.apiToFormMapping), ("formToApi", m.formToApiMapping),
     ("defaults", m.defaults), ("options", m.options)] config)

/-- The handle's bound configuration as one record (the value-shaped
entries), for stating what `clone` produces. -/
def Mapper.configValue (m : Mapper) : Value :=
  .obj [("apiToForm", m.apiToFormMapping), ("formToApi", m.formToApiMapping),
    ("defaults", m.defaults), ("options", m.options)]

/-! ## A heap model of `normalize`

The frame claim — that no public operation mutates caller-owned trees or
the handle's configuration — is about object identity, which the pure
embedding cannot see.  This section re-embeds `normalize` (and the
`setNestedValue` it writes through) over an explicit store of object and
array nodes, where `{...defaultValues}` shares the nested nodes of the
defaults tree, exactly as the JS heap does.  Dates stay scalars here
(property writes on `Date` objects are not modelled), and the
`TypeError`s of writing through primitives are modelled as silent no-ops:
neither is reachable in the scenarios the claims exercise. -/

/-- A heap value: scalars are immediate, objects and arrays are
references into the store. -/
inductive HVal where
  | undef : HVal
  | null : HVal
  | str : String → HVal
  | num : ℚ → HVal
  | bool : Bool → HVal
  | date : Int → HVal
  | ref : Nat → HVal
deriving DecidableEq

/-- A store node: an object's field list or an array's element list. -/
inductive HNode where
  | hobj : List (String × HVal) → HNode
  | harr : List HVal → HNode
deriving DecidableEq

/-- The store: allocated nodes and the next fresh address. -/
structure Heap where
  nodes : List (Nat × HNode)
  next : Nat
deriving DecidableEq

/-- Node at an address. -/
def Heap.lookup (h : Heap) (a : Nat) : Option HNode :=
  (h.nodes.find? (fun p => p.1 = a)).map Prod.snd

/-- Overwrite the node at an address. -/
def Heap.setNode (h : Heap) (a : Nat) (n : HNode) : Heap :=
  ⟨h.nodes.map (fun p => if p.1 = a then (a, n) else p), h.next⟩

/-- Allocate a fresh node. -/
def Heap.alloc (h : Heap) (n : HNode) : Nat × Heap :=
  (h.next, ⟨h.nodes ++ [(h.next, n)], h.next + 1⟩)

/-- `truthy` on heap values (references are objects, hence truthy). -/
def truthyH : HVal → Bool
  | .undef => false
  | .null => false
  | .bool b => b
  | .num q => decide (q ≠ 0)
  | .str s => decide (s ≠ "")
  | _ => true

/-- `isPlainObject` over the store: a reference to an object node. -/
def isPlainObjectH (h : Heap) : HVal → Bool
  | .ref a => match h.lookup a with
      | some (.hobj _) => true
      | _ => false
  | _ => false

/-- `Array.isArray` over the store. -/
def isArrH (h : Heap) : HVal → Bool
  | .ref a => match h.lookup a with
      | some (.harr _) => true
      | _ => false
  | _ => false

/-- Property read `v[k]` over the store. -/
def getFieldH (h : Heap) (v : HVal) (k : String) : HVal :=
  match v with
  | .ref a =>
      (match h.lookup a with
       | some (.hobj fs) =>
           match fs.find? (fun kv => kv.1 = k) with
           | some kv => kv.2
           | none => .undef
       | some (.harr xs) =>
           if k = "length" then .num xs.length
           else (match strToNat k with
             | some i => if toString i = k then (xs.get? i).getD .undef else .undef
             | none => .undef)
       | none => .undef)
  | .str s =>
      if k = "length" then .num s.length
      else (match strToNat k with
        | some i =>
            if toString i = k then
              match s.toList.get? i with
              | some c => .str (String.mk [c])
              | none => .undef
            else .undef
        | none => .undef)
  | _ => (.undef)

/-- Property write `v[k] = x` over the store: mutates the referenced
node in place; a silent no-op on primitives. -/
def setFieldH (h : Heap) (v : HVal) (k : String) (x : HVal) : Heap :=
  match v with
  | .ref a =>
      (match h.lookup a with
       | some (.hobj fs) =>
           if (fs.find? (fun kv => kv.1 = k)).isSome then
             h.setNode a (.hobj (fs.map fun kv => if kv.1 = k then (k, x) else kv))
           else h.setNode a (.hobj (fs ++ [(k, x)]))
       | some (.harr xs) =>
           (match strToNat k with
            | some i =>
                if toString i = k then
                  h.setNode a (.harr ((xs ++ List.replicate (i + 1 - xs.length) HVal.undef).set i x))
                else h
            | none => h)
       | none => h)
  | _ => h

/-- `source?.[key]` over the store. -/
def optChainH (h : Heap) (v : HVal) (k : String) : HVal :=
  match v with
  | .undef => .undef
  | .null => .undef
  | _ => getFieldH h v k

/-- The `for..in` enumeration over the store. -/
def forInPairsH (h : Heap) (v : HVal) : List (String × HVal) :=
  match v with
  | .ref a =>
      (match h.lookup a with
       | some (.hobj fs) => fs
       | some (.harr xs) => xs.enum.map fun p => (toString p.1, p.2)
       | none => [])
  | .str s => s.toList.enum.map fun p => (toString p.1, HVal.str (String.mk [p.2]))
  | _ => []

/-- Spread source fields over the store (`{...v}` copies the field list;
the field values — references included — are shared). -/
def spreadFieldsH (h : Heap) (v : HVal) : List (String × HVal) := forInPairsH h v

/-- `coerceType` on heap values: scalars behave as in the pure model; a
coerced date is carried as the scalar `date`. -/
def coerceTypeH (value : HVal) : HVal :=
  match value with
  | .str s =>
      (match coerceType (.str s) with
       | .num q => .num q
       | .bool b => .bool b
       | .date t => .date t
       | _ => .str s)
  | v => v

/-- The loop of `setNestedValue` over the store: descend truthy plain
objects in place (this is where writes reach shared structure), force
other intermediates to a fresh `{}`. -/
def setNestedGoH : Heap → HVal → List String → HVal → Heap
  | h, _, [], _ => h
  | h, cur, [last], x => setFieldH h cur last x
  | h, cur, k :: rest, x =>
      let w := getFieldH h cur k
      if truthyH w && isPlainObjectH h w then setNestedGoH h w rest x
      else
        let p := h.alloc (.hobj [])
        let h₁ := setFieldH p.2 cur k (.ref p.1)
        setNestedGoH h₁ (getFieldH h₁ cur k) rest x

/-- `setNestedValue(obj, path, value)` over the store. -/
def setNestedValueH (h : Heap) (root : HVal) (path : String) (x : HVal) : Heap :=
  setNestedGoH h root (splitDots path) x

/-- The `processMapping` loop of `normalize` over the store, writing
into the `formData` node it closes over. -/
def processMappingH (typeCoercion : Bool)
    (transforms : List (String × (HVal → HVal → HVal))) :
    Nat → Heap → HVal → HVal → HVal → Heap
  | 0, h, _, _, _ => h
  | fuel + 1, h, formData, source, schema =>
      (forInPairsH h schema).foldl (fun h kv =>
        let apiKey := kv.1
        let mappingValue := kv.2
        let sourceValue := optChainH h source apiKey
        match mappingValue with
        | .str formKey =>
            let value := sourceValue
            let value :=
              match (transforms.find? (fun p => p.1 = formKey)).map Prod.snd with
              | some f => f value source
              | none => value
            let value :=
              if typeCoercion && value ≠ .null && value ≠ .undef then coerceTypeH value
              else value
            if value ≠ .undef then setNestedValueH h formData formKey value else h
        | _ =>
            if isPlainObjectH h mappingValue then
              if isPlainObjectH h sourceValue then
                processMappingH typeCoercion transforms fuel h formData sourceValue mappingValue
              else h
            else if isArrH h mappingValue && isArrH h sourceValue then
              let items :=
                match sourceValue with
                | .ref a => (match h.lookup a with | some (.harr xs) => xs | _ => [])
                | _ => []
              let itemMapping := (forInPairsH h mappingValue).headD ("", .undef)
              let step := items.foldl (fun (p : Heap × List HVal) item =>
                if isPlainObjectH p.1 itemMapping.2 then
                  let al := p.1.alloc (.hobj [])
                  (processMappingH typeCoercion transforms fuel al.2 formData item itemMapping.2,
                   HVal.ref al.1 :: p.2)
                else (p.1, item :: p.2)) (h, [])
              let aa := step.1.alloc (.harr step.2.reverse)
              setFieldH aa.2 formData apiKey (.ref aa.1)
            else h) h

/-- `normalize(apiData, mapping, options)` over the store: the output
object starts as the shallow copy `{...defaultValues}` — its field list
is copied, the nested nodes are shared.  The fuel covers any acyclic
mapping reachable in the store. -/
def normalizeHeap (h : Heap) (apiData mapping : HVal) (typeCoercion : Bool)
    (defaultValues : HVal)
    (transforms : List (String × (HVal → HVal → HVal))) : HVal × Heap :=
  let fields := spreadFieldsH h defaultValues
  let p := h.alloc (.hobj fields)
  (.ref p.1,
   processMappingH typeCoercion transforms (h.nodes.length + 2) p.2 (.ref p.1) apiData mapping)

/-! ## Helper lemmas -/

theorem vsize_pos : ∀ v : Value, 1 ≤ vsize v := by
  intro v; cases v <;> simp [vsize]

/-- The field entry of a record, with presence: `some .undef` is an
explicit absence marker under the key; `none` is no entry at all. -/
def fieldEntry : Value → String → Option Value
  | .obj fs, k => (fs.find? (fun kv => kv.1 = k)).map Prod.snd
  | _, _ => none

theorem fieldEntry_setField_self (fs : List (String × Value)) (k : String) (x : Value) :
    fieldEntry (setField (.obj fs) k x) k = some x := by
  by_cases h : (fs.find? (fun kv => kv.1 = k)).isSome
  · have hpt : ((fun kv : String × Value => decide (kv.1 = k)) ∘
        (fun kv => if kv.1 = k then (k, x) else kv)) =
        (fun kv : String × Value => decide (kv.1 = k)) := by
      funext kv; by_cases hk : kv.1 = k <;> simp [hk]
    obtain ⟨kv₀, hkv₀⟩ := Option.isSome_iff_exists.mp h
    have hp : kv₀.1 = k := by simpa using List.find?_some hkv₀
    simp [setField, fieldEntry, h, hpt, hkv₀, hp]
  · have hn : fs.find? (fun kv => kv.1 = k) = none := by
      cases hf : fs.find? (fun kv => kv.1 = k) <;> simp_all
    simp [setField, fieldEntry, h, hn]

theorem fieldEntry_setField_ne (fs : List (String × Value)) (k k' : String) (x : Value)
    (h : k' ≠ k) : fieldEntry (setField (.obj fs) k' x) k = fieldEntry (.obj fs) k := by
  by_cases hs : (fs.find? (fun kv => kv.1 = k')).isSome
  · have hpt : ((fun kv : String × Value => decide (kv.1 = k)) ∘
        (fun kv => if kv.1 = k' then (k', x) else kv)) =
        (fun kv : String × Value => decide (kv.1 = k)) := by
      funext kv; by_cases hk : kv.1 = k' <;> simp [hk, h]
    simp only [setField, fieldEntry, hs, if_pos, List.find?_map, hpt]
    cases hf : fs.find? (fun kv => kv.1 = k) with
    | none => simp
    | some kv₀ =>
        have hp : kv₀.1 = k := by simpa using List.find?_some hf
        have : kv₀.1 ≠ k' := hp ▸ (Ne.symm h)
        simp [this]
  · simp only [setField, fieldEntry, hs, if_neg, List.find?_append]
    have : List.find? (fun kv : String × Value => decide (kv.1 = k)) [(k', x)] = none := by
      simp [h]
    simp [this]

/-- `setField` keeps records record-shaped. -/
theorem setField_obj_shape (fs : List (String × Value)) (k : String) (x : Value) :
    ∃ gs, setField (.obj fs) k x = .obj gs := by
  by_cases h : (fs.find? (fun kv => kv.1 = k)).isSome <;> simp [setField, h]

/-- A dot-free string splits into itself. -/
theorem splitDotsCh_no_dot (l : List Char) (h : '.' ∉ l) : splitDotsCh l = [l] := by
  induction l with
  | nil => rfl
  | cons c cs ih =>
      have hc : c ≠ '.' := fun hcc => h (hcc ▸ List.mem_cons_self c cs)
      rw [splitDotsCh, if_neg hc, ih (fun hm => h (List.mem_cons_of_mem c hm))]

theorem splitDots_no_dot (s : String) (h : '.' ∉ s.toList) : splitDots s = [s] := by
  unfold splitDots
  rw [splitDotsCh_no_dot s.toList h]
  rfl

/-- A dot-free, non-empty path makes `setChangePath` a single top-level
field assignment. -/
theorem setChangePath_single (fs : List (String × Value)) (k : String) (x : Value)
    (hne : k ≠ "") (h : '.' ∉ k.toList) :
    setChangePath (.obj fs) k x = .ok (setField (.obj fs) k x) := by
  unfold setChangePath
  rw [if_neg hne, splitDots_no_dot k h]
  rfl

theorem exceptBind_ok {α β : Type} (a : Except String α) (f : α → Except String β) (r : β)
    (h : a.bind f = .ok r) : ∃ m, a = .ok m ∧ f m = .ok r := by
  cases a with
  | error e => simp [Except.bind] at h
  | ok m => exact ⟨m, rfl, by simpa [Except.bind] using h⟩

theorem exceptSeq_ok {α β : Type} (a : Except String α) (f : α → Except String β) (r : β)
    (h : (a >>= f) = .ok r) : ∃ m, a = .ok m ∧ f m = .ok r :=
  exceptBind_ok a f r h

/-- Shape transport through `setField`. -/
theorem setField_shape_of (v : Value) (hv : ∃ fs, v = .obj fs) (k : String) (x : Value) :
    ∃ gs, setField v k x = .obj gs := by
  obtain ⟨fs, rfl⟩ := hv
  exact setField_obj_shape fs k x

/-- Post-condition transport along an Except-valued fold. -/
theorem foldlM_except_inv {α β : Type} (P : β → Prop) (f : β → α → Except String β)
    (l : List α) :
    ∀ (init : β), P init → (∀ b a, P b → ∀ r, f b a = .ok r → P r) →
      ∀ r, l.foldlM f init = .ok r → P r := by
  induction l with
  | nil =>
      intro init hP _ r h
      simp only [List.foldlM_nil] at h
      cases h; exact hP
  | cons a l ih =>
      intro init hP hf r h
      simp only [List.foldlM_cons] at h
      obtain ⟨m, hm, hrest⟩ := exceptBind_ok _ _ _ h
      exact ih m (hf init a hP m hm) hf r hrest

/-- `objAssign` keeps records record-shaped. -/
theorem objAssign_shape (fs : List (String × Value)) (src : Value) :
    ∃ gs, objAssign (.obj fs) src = .obj gs := by
  unfold objAssign
  generalize spreadFields src = l
  induction l generalizing fs with
  | nil => exact ⟨fs, rfl⟩
  | cons kv l ih =>
      obtain ⟨gs, hgs⟩ := setField_obj_shape fs kv.1 kv.2
      simpa [hgs] using ih gs

/-- A successful `scpGo` from a record returns a record. -/
theorem scpGo_shape (fs : List (String × Value)) (segs : List String) (x : Value) (r : Value)
    (h : scpGo (.obj fs) segs x = .ok r) : ∃ gs, r = .obj gs := by
  match segs with
  | [] => cases h; exact ⟨fs, rfl⟩
  | [last] =>
      simp only [scpGo] at h
      obtain ⟨gs, hgs⟩ := setField_obj_shape fs last x
      rw [hgs] at h; cases h; exact ⟨gs, rfl⟩
  | key :: k2 :: rest =>
      simp only [scpGo] at h
      cases hbr : parseBracket key.toList with
      | some br =>
          rw [hbr] at h
          obtain ⟨m, _, hp⟩ := exceptSeq_ok _ _ _ h
          simp only [pure, Except.pure, Except.ok.injEq] at hp
          subst hp
          refine setField_shape_of _ (setField_shape_of _ ?_ _ _) _ _
          split
          · exact ⟨fs, rfl⟩
          · exact setField_obj_shape fs _ _
      | none =>
          rw [hbr] at h
          obtain ⟨m, _, hp⟩ := exceptSeq_ok _ _ _ h
          simp only [pure, Except.pure, Except.ok.injEq] at hp
          subst hp
          refine setField_shape_of _ ?_ _ _
          split
          · exact ⟨fs, rfl⟩
          · exact setField_obj_shape fs _ _

/-- A successful `setChangePath` from a record returns a record. -/
theorem setChangePath_shape (fs : List (String × Value)) (p : String) (x : Value) (r : Value)
    (h : setChangePath (.obj fs) p x = .ok r) : ∃ gs, r = .obj gs := by
  unfold setChangePath at h
  split at h
  · cases h; exact objAssign_shape fs x
  · exact scpGo_shape fs _ x r h

/-- The differ never writes when both sides are the same value: the
`oldVal === newVal` probe returns at once (default `ignoreFields`). -/
theorem computeDiff_diag (ca : Bool) (fuel : Nat) (v : Value) (p : String) (acc : Value) :
    computeDiff ca [] fuel v v p acc = .ok acc := by
  cases fuel with
  | zero => rfl
  | succ fuel => simp [computeDiff]

/-- The change accumulator stays a record through `computeDiff`. -/
theorem computeDiff_shape (ca : Bool) (ig : List String) :
    ∀ (fuel : Nat) (o n : Value) (p : String) (acc r : Value),
      (∃ fs, acc = .obj fs) → computeDiff ca ig fuel o n p acc = .ok r →
      ∃ gs, r = .obj gs := by
  intro fuel
  induction fuel with
  | zero =>
      intro o n p acc r hacc h
      cases h; exact hacc
  | succ fuel ih =>
      intro o n p acc r hacc h
      obtain ⟨fs, rfl⟩ := hacc
      simp only [computeDiff] at h
      split at h
      · cases h; exact ⟨fs, rfl⟩
      · split at h
        · cases h; exact ⟨fs, rfl⟩
        · split at h
          · exact setChangePath_shape fs _ _ _ h
          · split at h
            · exact setChangePath_shape fs _ _ _ h
            · split at h
              · -- array branch
                split at h
                · split at h
                  · exact setChangePath_shape fs _ _ _ h
                  · cases h; exact ⟨fs, rfl⟩
                · split at h
                  · split at h
                    · exact setChangePath_shape fs _ _ _ h
                    · exact foldlM_except_inv (fun v => ∃ gs, v = .obj gs) _ _ _
                        ⟨fs, rfl⟩
                        (fun b a hb r hr => ih _ _ _ b r hb hr) r h
                  · exact setChangePath_shape fs _ _ _ h
              · -- object branch
                split at h
                · split at h
                  · exact setChangePath_shape fs _ _ _ h
                  · obtain ⟨m, hm1, hm2⟩ := exceptSeq_ok _ _ _ h
                    have hmshape := foldlM_except_inv (fun v => ∃ gs, v = .obj gs) _ _ _
                      ⟨fs, rfl⟩ (fun b a hb r hr => ih _ _ _ b r hb hr) m hm1
                    refine foldlM_except_inv (fun v => ∃ gs, v = .obj gs) _ _ _
                      hmshape ?_ r hm2
                    intro b a hb r' hr'
                    obtain ⟨gs, rfl⟩ := hb
                    split at hr'
                    · cases hr'; exact ⟨gs, rfl⟩
                    · exact setChangePath_shape gs _ _ _ hr'
                · cases h; exact ⟨fs, rfl⟩

theorem digitChar_digit (m : Nat) (h : m < 10) : isDigitCh (Nat.digitChar m) = true := by
  interval_cases m <;> rfl

theorem toDigitsCore_digits : ∀ (f n : Nat) (l : List Char),
    (∀ c ∈ l, isDigitCh c = true) → ∀ c ∈ Nat.toDigitsCore 10 f n l, isDigitCh c = true := by
  intro f
  induction f with
  | zero =>
      intro n l hl c hc
      simpa [Nat.toDigitsCore] using hl c (by simpa [Nat.toDigitsCore] using hc)
  | succ f ih =>
      intro n l hl c hc
      have hl' : ∀ c ∈ Nat.digitChar (n % 10) :: l, isDigitCh c = true := by
        intro c hc
        rcases List.mem_cons.mp hc with hc | hc
        · exact hc ▸ digitChar_digit _ (Nat.mod_lt n (by norm_num))
        · exact hl c hc
      by_cases h10 : n / 10 = 0
      · simp only [Nat.toDigitsCore, h10, if_true] at hc
        exact hl' c hc
      · simp only [Nat.toDigitsCore, h10, if_false] at hc
        exact ih (n / 10) _ hl' c hc

/-- Every character of a decimal index string is a digit. -/
theorem natToString_digits (i : Nat) : ∀ c ∈ (toString i).toList, isDigitCh c = true := by
  intro c hc
  have hrepr : (toString i).toList = Nat.toDigitsCore 10 (i + 1) i [] := rfl
  rw [hrepr] at hc
  exact toDigitsCore_digits (i + 1) i [] (by simp) c hc

theorem natToString_no_dot (i : Nat) : '.' ∉ (toString i).toList := fun hmem =>
  absurd (natToString_digits i '.' hmem) (by decide)

theorem getField_fieldEntry (fs : List (String × Value)) (k : String) :
    getField (.obj fs) k = (fieldEntry (.obj fs) k).getD .undef := by
  simp only [getField, fieldEntry]
  cases fs.find? (fun kv => kv.1 = k) <;> simp

theorem getField_setField_self (fs : List (String × Value)) (k : String) (x : Value) :
    getField (setField (.obj fs) k x) k = x := by
  obtain ⟨gs, hgs⟩ := setField_obj_shape fs k x
  rw [hgs, getField_fieldEntry, ← hgs, fieldEntry_setField_self]
  rfl

theorem getField_setField_ne (fs : List (String × Value)) (k k' : String) (x : Value)
    (h : k' ≠ k) : getField (setField (.obj fs) k' x) k = getField (.obj fs) k := by
  obtain ⟨gs, hgs⟩ := setField_obj_shape fs k' x
  rw [hgs, getField_fieldEntry, ← hgs, fieldEntry_setField_ne fs k k' x h,
    ← getField_fieldEntry]

theorem foldl_setField_shape (l : List (String × Value)) :
    ∀ (acc : Value), (∃ fs, acc = .obj fs) →
      ∃ gs, l.foldl (fun acc kv => setField acc kv.1 kv.2) acc = .obj gs := by
  induction l with
  | nil => intro acc hacc; simpa using hacc
  | cons kv l ih =>
      intro acc hacc
      obtain ⟨fs, rfl⟩ := hacc
      simpa using ih (setField (.obj fs) kv.1 kv.2) (setField_obj_shape fs kv.1 kv.2)

theorem foldl_setField_not_mem (l : List (String × Value)) (k : String) :
    ∀ (acc : Value), (∃ fs, acc = .obj fs) → k ∉ l.map Prod.fst →
      getField (l.foldl (fun acc kv => setField acc kv.1 kv.2) acc) k = getField acc k := by
  induction l with
  | nil => intro acc _ _; rfl
  | cons kv l ih =>
      intro acc hacc hk
      obtain ⟨fs, rfl⟩ := hacc
      have hne : kv.1 ≠ k := fun he => hk (by simp [he])
      simp only [List.foldl_cons]
      rw [ih (setField (.obj fs) kv.1 kv.2) (setField_obj_shape fs kv.1 kv.2)
        (fun hm => hk (List.mem_cons_of_mem _ hm)),
        getField_setField_ne fs k kv.1 kv.2 hne]

theorem foldl_setField_mem (l : List (String × Value)) (k : String) (d : Value) :
    ∀ (acc : Value), (∃ fs, acc = .obj fs) → (l.map Prod.fst).Nodup → (k, d) ∈ l →
      getField (l.foldl (fun acc kv => setField acc kv.1 kv.2) acc) k = d := by
  induction l with
  | nil => intro acc _ _ hmem; cases hmem
  | cons kv l ih =>
      intro acc hacc hnd hmem
      obtain ⟨fs, rfl⟩ := hacc
      simp only [List.map_cons, List.nodup_cons] at hnd
      rcases List.mem_cons.mp hmem with hmem | hmem
      · cases hmem
        simp only [List.foldl_cons]
        rw [foldl_setField_not_mem l k (setField (.obj fs) k d)
          (setField_obj_shape fs k d) hnd.1, getField_setField_self]
      · simp only [List.foldl_cons]
        exact ih (setField (.obj fs) kv.1 kv.2) (setField_obj_shape fs kv.1 kv.2)
          hnd.2 hmem

theorem getFieldD_of_ne_undef (config : Value) (k : String) (d : Value)
    (h : getField config k ≠ .undef) : getFieldD config k d = getField config k := by
  unfold getFieldD
  cases hv : getField config k with
  | undef => exact absurd hv h
  | _ => rfl

theorem truthy_ne_undef (v : Value) (h : truthy v = true) : v ≠ .undef := by
  intro hv; rw [hv] at h; exact absurd h (by decide)

/-- Post-condition transport along an Except-valued fold, with the step
hypothesis restricted to list members. -/
theorem foldlM_except_inv_mem {α β : Type} (P : β → Prop) (f : β → α → Except String β) :
    ∀ (l : List α) (init : β), P init →
      (∀ b a, a ∈ l → P b → ∀ r, f b a = .ok r → P r) →
      ∀ r, l.foldlM f init = .ok r → P r := by
  intro l
  induction l with
  | nil =>
      intro init hP _ r h
      simp only [List.foldlM_nil] at h
      cases h; exact hP
  | cons a l ih =>
      intro init hP hf r h
      simp only [List.foldlM_cons] at h
      obtain ⟨m, hm, hrest⟩ := exceptBind_ok _ _ _ h
      exact ih m (hf init a (List.mem_cons_self a l) hP m hm)
        (fun b a2 ha2 => hf b a2 (List.mem_cons_of_mem a ha2)) r hrest

/-- The deletion loop of the differ's object branch: once it reaches a
key absent from the current keys, the accumulator carries an explicit
`undefined` marker at that key to the end of the fold. -/
theorem foldlM_marker (newKeys : List String) (f : Value → String → Except String Value)
    (k : String) (hkout : k ∉ newKeys) :
    ∀ (l : List String) (acc : Value),
      (∀ (fs : List (String × Value)) (a : String), a ∈ l →
        f (.obj fs) a = if newKeys.contains a then .ok (.obj fs)
          else .ok (setField (.obj fs) a .undef)) →
      k ∈ l → (∃ fs, acc = .obj fs) →
      ∀ t, l.foldlM f acc = .ok t → fieldEntry t k = some .undef := by
  intro l
  induction l with
  | nil => intro acc _ hk; cases hk
  | cons a l ih =>
      intro acc hf hk hacc t h
      obtain ⟨fs, rfl⟩ := hacc
      simp only [List.foldlM_cons] at h
      obtain ⟨m, hm, hrest⟩ := exceptBind_ok _ _ _ h
      rw [hf fs a (List.mem_cons_self a l)] at hm
      rcases List.mem_cons.mp hk with rfl | hk
      · have hc : newKeys.contains k = false := by
          cases hcc : newKeys.contains k
          · rfl
          · exact absurd (List.mem_of_elem_eq_true hcc) hkout
        rw [hc] at hm
        simp only [Bool.false_eq_true, if_false, Except.ok.injEq] at hm
        subst hm
        refine (foldlM_except_inv_mem
          (fun b => (∃ gs, b = .obj gs) ∧ fieldEntry b k = some .undef) f l _
          ⟨setField_obj_shape fs k .undef, fieldEntry_setField_self fs k .undef⟩
          ?_ t hrest).2
        intro b a2 ha2 hb r hr
        obtain ⟨⟨gs, rfl⟩, hmark⟩ := hb
        rw [hf gs a2 (List.mem_cons_of_mem k ha2)] at hr
        by_cases hc2 : newKeys.contains a2 = true
        · rw [hc2] at hr
          simp only [if_true, Except.ok.injEq] at hr
          subst hr
          exact ⟨⟨gs, rfl⟩, hmark⟩
        · rw [Bool.of_not_eq_true hc2] at hr
          simp only [Bool.false_eq_true, if_false, Except.ok.injEq] at hr
          subst hr
          refine ⟨setField_obj_shape gs a2 .undef, ?_⟩
          by_cases hak : a2 = k
          · subst hak; exact fieldEntry_setField_self gs a2 .undef
          · rw [fieldEntry_setField_ne gs k a2 .undef hak]; exact hmark
      · have hmshape : ∃ gs, m = .obj gs := by
          by_cases hc : newKeys.contains a = true
          · rw [hc] at hm
            simp only [if_true, Except.ok.injEq] at hm
            exact ⟨fs, hm.symm⟩
          · rw [Bool.of_not_eq_true hc] at hm
            simp only [Bool.false_eq_true, if_false, Except.ok.injEq] at hm
            exact hm ▸ setField_obj_shape fs a .undef
        exact ih m (fun gs a2 ha2 => hf gs a2 (List.mem_cons_of_mem a ha2))
          hk hmshape t hrest

/-- `Except.ok` on the left of a bind reduces. -/
theorem exceptOkBind {α β : Type} (a : α) (f : α → Except String β) :
    (Except.ok a >>= f) = f a := rfl

/-- A bracket-index path segment `k[i]` stays dot-free. -/
theorem itemPath_no_dot (k : String) (hkd : '.' ∉ k.toList) (i : Nat) :
    '.' ∉ (k ++ "[" ++ toString i ++ "]").toList := by
  intro hm
  simp only [String.toList, String.data_append, List.mem_append] at hm
  rcases hm with ((hm | hm) | hm) | hm
  · exact hkd hm
  · simp at hm
  · exact absurd (natToString_digits i '.' hm) (by decide)
  · simp at hm

/-- A bracket-index path segment `k[i]` is non-empty. -/
theorem itemPath_nonempty (k : String) (i : Nat) :
    (k ++ "[" ++ toString i ++ "]") ≠ "" := by
  intro he
  have := congrArg String.data he
  simp only [String.data_append] at this
  simp at this

/-- A changed value whose new side is primitive-typed (or whose `typeof`
changed) is written through one `setChangePath` at its path. -/
theorem computeDiff_prim_write (g : Nat) (a b : Value) (p : String)
    (hp : p ≠ "") (hpd : '.' ∉ p.toList) (hab : a ≠ b)
    (hb : typeOf a ≠ typeOf b ∨ typeOf b ≠ "object" ∨ b = Value.null)
    (fs : List (String × Value)) :
    computeDiff true [] (g + 1) a b p (.obj fs) = .ok (setField (.obj fs) p b) := by
  simp only [computeDiff]
  rw [if_neg (fun (hc : ([] : List String).contains p = true) => Bool.noConfusion hc)]
  rw [if_neg hab]
  by_cases ht : typeOf a = typeOf b
  · rw [if_neg (fun hne => hne ht)]
    rw [if_pos (show (decide (typeOf b ≠ "object") || decide (b = Value.null)) = true by
      rcases hb with h1 | h2 | h3
      · exact absurd ht h1
      · simp [h2]
      · simp [h3])]
    rw [if_pos hab]
    exact setChangePath_single fs p b hp hpd
  · rw [if_pos ht]
    exact setChangePath_single fs p b hp hpd

/-- The per-index loop of the array branch skips every index where the
original and current elements agree. -/
theorem c9_diag_fold (g2 : Nat) (k : String) (oldXs : List Value) :
    ∀ (l : List Value) (n : Nat) (acc : Value),
      (∀ j, j < l.length → oldXs.get? (n + j) = l.get? j) →
      (List.enumFrom n l).foldlM (fun changes p =>
        let itemPath :=
          if k ≠ "" then k ++ "[" ++ toString p.1 ++ "]"
          else "[" ++ toString p.1 ++ "]"
        computeDiff true [] g2 ((oldXs.get? p.1).getD .undef) p.2 itemPath changes)
        acc = .ok acc := by
  intro l
  induction l with
  | nil => intro n acc _; rfl
  | cons x xs ih =>
      intro n acc h
      have h0 : oldXs.get? n = some x := by
        have h00 := h 0 (Nat.succ_pos _)
        rw [Nat.add_zero] at h00
        exact h00
      simp only [List.enumFrom, List.foldlM_cons]
      rw [show (oldXs.get? n).getD Value.undef = x from by rw [h0]; rfl]
      rw [computeDiff_diag, exceptOkBind]
      exact ih (n + 1) acc (fun j hj => by
        have h2 := h (j + 1) (by simpa using Nat.succ_lt_succ hj)
        rw [show n + (j + 1) = n + 1 + j from by omega] at h2
        exact h2)

/-- The per-index loop of the array branch on lists agreeing everywhere
except at one index: exactly one write, at the literal bracket path of
that index. -/
theorem c9_fold (g : Nat) (k : String) (hk : k ≠ "") (hkd : '.' ∉ k.toList)
    (a b : Value) (hab : a ≠ b)
    (hb : typeOf a ≠ typeOf b ∨ typeOf b ≠ "object" ∨ b = Value.null)
    (oldXs post : List Value) :
    ∀ (pre : List Value) (n i : Nat) (fs : List (String × Value)),
      i = n + pre.length →
      (∀ j, j < pre.length → oldXs.get? (n + j) = pre.get? j) →
      oldXs.get? i = some a →
      (∀ j, j < post.length → oldXs.get? (i + 1 + j) = post.get? j) →
      (List.enumFrom n (pre ++ b :: post)).foldlM (fun changes p =>
        let itemPath :=
          if k ≠ "" then k ++ "[" ++ toString p.1 ++ "]"
          else "[" ++ toString p.1 ++ "]"
        computeDiff true [] (g + 1) ((oldXs.get? p.1).getD .undef) p.2 itemPath changes)
        (.obj fs) =
      .ok (setField (.obj fs) (k ++ "[" ++ toString i ++ "]") b) := by
  intro pre
  induction pre with
  | nil =>
      intro n i fs hi hold hmid hpost
      simp only [List.nil_append, List.enumFrom, List.foldlM_cons]
      rw [if_pos hk]
      have hn : i = n := by simpa using hi
      subst hn
      rw [show (oldXs.get? i).getD Value.undef = a from by rw [hmid]; rfl]
      rw [computeDiff_prim_write g a b _ (itemPath_nonempty k i) (itemPath_no_dot k hkd i)
        hab hb fs, exceptOkBind]
      exact c9_diag_fold (g + 1) k oldXs post (i + 1)
        (setField (.obj fs) (k ++ "[" ++ toString i ++ "]") b)
        (fun j hj => by
          have h2 := hpost j hj
          rwa [show i + 1 + j = i + 1 + j from rfl] at h2)
  | cons x pre ih =>
      intro n i fs hi hold hmid hpost
      simp only [List.cons_append, List.enumFrom, List.foldlM_cons]
      have h0 : oldXs.get? n = some x := by
        have h00 := hold 0 (Nat.succ_pos _)
        rw [Nat.add_zero] at h00
        exact h00
      rw [show (oldXs.get? n).getD Value.undef = x from by rw [h0]; rfl]
      rw [computeDiff_diag, exceptOkBind]
      exact ih (n + 1) i fs (by simp at hi ⊢; omega)
        (fun j hj => by
          have h2 := hold (j + 1) (by simpa using Nat.succ_lt_succ hj)
          rw [show n + (j + 1) = n + 1 + j from by omega] at h2
          exact h2)
        hmid hpost

/-- The array branch on equal-length sequences differing at one index:
the whole call is one `setField` of the literal bracket key. -/
theorem c9aux_arr (g : Nat) (k : String) (hk : k ≠ "") (hkd : '.' ∉ k.toList)
    (pre post : List Value) (a b : Value) (hab : a ≠ b)
    (hb : typeOf a ≠ typeOf b ∨ typeOf b ≠ "object" ∨ b = Value.null)
    (fs : List (String × Value)) :
    computeDiff true [] (g + 1 + 1) (.arr (pre ++ a :: post)) (.arr (pre ++ b :: post)) k
      (.obj fs) =
      .ok (setField (.obj fs) (k ++ "[" ++ toString pre.length ++ "]") b) := by
  simp only [computeDiff]
  rw [if_neg (fun (hc : ([] : List String).contains k = true) => Bool.noConfusion hc)]
  rw [if_neg (show ¬(Value.arr (pre ++ a :: post) = Value.arr (pre ++ b :: post)) from by
    intro he
    injection he with he2
    exact hab ((List.cons.injEq ..).mp (List.append_cancel_left he2)).1)]
  rw [if_neg (show ¬(Value.arr (pre ++ a :: post)).typeOf ≠
      (Value.arr (pre ++ b :: post)).typeOf from fun hne => hne rfl)]
  rw [if_neg (show ¬((decide ((Value.arr (pre ++ b :: post)).typeOf ≠ "object") ||
    decide (Value.arr (pre ++ b :: post) = Value.null)) = true) from by simp [typeOf])]
  simp only [Bool.not_true, Bool.false_eq_true, if_false]
  rw [if_neg (show ¬(pre ++ a :: post).length ≠ (pre ++ b :: post).length from
    fun hne => hne (by simp))]
  show (List.enumFrom 0 (pre ++ b :: post)).foldlM _ _ = _
  refine c9_fold g k hk hkd a b hab hb (pre ++ a :: post) post pre 0 pre.length fs
    (by omega) ?_ ?_ ?_
  · intro j hj
    rw [Nat.zero_add]
    exact List.get?_append hj
  · rw [List.get?_append_right (Nat.le_refl _)]
    simp
  · intro j hj
    rw [List.get?_append_right (by omega)]
    rw [show pre.length + 1 + j - pre.length = j + 1 from by omega]
    rfl

/-! ## The claims -/

/-- C6: for every value tree `x`, `diff(x, x)` with default options
returns the empty change tree `{}`: the strict-equality probe returns
before anything is written. -/
theorem c6_diff_self_empty (x : Value) : diff x x {} = .ok (.obj []) :=
  computeDiff_diag true (vsize x + 1) x "" (.obj [])

/-- C10: whole-tree equality in `isEqual` (and hence `hasChanges`) is
record key-order sensitive, because it compares JSON serializations:
these two records hold exactly the same key-value pairs in different
orders, yet `isEqual` is `false` and `hasChanges` is `true`. -/
theorem c10_isEqual_key_order_sensitive :
    isEqual (.obj [("a", .num 1), ("b", .num 2)]) (.obj [("b", .num 2), ("a", .num 1)]) = false ∧
    hasChanges (.obj [("a", .num 1), ("b", .num 2)]) (.obj [("b", .num 2), ("a", .num 1)]) = true ∧
    [("a", Value.num 1), ("b", Value.num 2)].Perm [("b", Value.num 2), ("a", Value.num 1)] := by
  refine ⟨by decide, by decide, by decide⟩

/-- The depth-3 mapping tree on which mapping inversion loses the key
prefix (C1's failing input). -/
def c1Mapping : Value := .obj [("a", .obj [("b", .obj [("c", .str "x")])])]

/-- The matching source tree of C1's failing input. -/
def c1Source : Value := .obj [("a", .obj [("b", .obj [("c", .num 5)])])]

/-- C1: evaluation at the failing input.  The mapping tree's leaf target
names are unique tree-wide (`x` is the only one), the source holds only
records and a scalar at the mapped path, no transforms are registered
and coercion is disabled — yet `denormalize(normalize(x))` reproduces
the value at `b.c` instead of the mapped source path `a.b.c`, because
`invertMapping` drops the accumulated prefix (and plants a junk `{}`
entry) as soon as the nesting is three levels deep. -/
theorem c1_roundtrip_fails_at_depth3 :
    normalize c1Source c1Mapping { typeCoercion := false } = .obj [("x", .num 5)] ∧
    invertMapping c1Mapping = .obj [("b", .obj []), ("x", .str "b.c")] ∧
    denormalize (normalize c1Source c1Mapping { typeCoercion := false }) c1Mapping {} =
      .ok (.obj [("b", .obj [("c", .num 5)])]) ∧
    getNestedValue c1Source "a.b.c" = .num 5 ∧
    getNestedValue (.obj [("b", .obj [("c", .num 5)])]) "a.b.c" = .undef := by
  refine ⟨by decide, by decide, by decide, by decide, by decide⟩

/-- C3's failing store: node 0 is the handle's `defaults` tree
`{a: {b: 1}}` (its nested record is node 1), node 2 the source
`{x: 5}`, node 3 the mapping `{x: "a.c"}`. -/
def c3Heap : Heap :=
  ⟨[(0, .hobj [("a", .ref 1)]), (1, .hobj [("b", .num 1)]),
    (2, .hobj [("x", .num 5)]), (3, .hobj [("x", .str "a.c")])], 4⟩

/-- C3: evaluation at the failing input.  `normalize` starts from the
shallow copy `{...defaultValues}`, so the write through the target path
`a.c` lands in node 1 — the nested record of the handle's bound
defaults tree — mutating the configuration from `{b: 1}` to
`{b: 1, c: 5}`; the returned tree (node 4) also aliases that node
rather than holding a deep clone. -/
theorem c3_normalize_mutates_defaults :
    c3Heap.lookup 1 = some (.hobj [("b", .num 1)]) ∧
    (normalizeHeap c3Heap (.ref 2) (.ref 3) true (.ref 0) []).2.lookup 1 =
      some (.hobj [("b", .num 1), ("c", .num 5)]) ∧
    (normalizeHeap c3Heap (.ref 2) (.ref 3) true (.ref 0) []).2.lookup 1 ≠ c3Heap.lookup 1 ∧
    (normalizeHeap c3Heap (.ref 2) (.ref 3) true (.ref 0) []).1 = .ref 4 ∧
    (normalizeHeap c3Heap (.ref 2) (.ref 3) true (.ref 0) []).2.lookup 4 =
      some (.hobj [("a", .ref 1)]) := by
  refine ⟨by decide, by decide, by decide, by decide, by decide⟩

/-- C2, counterexample: with no validator, `buildPatchPayload` returns
the sentinel although `diff(initial, current)` is not the empty change
tree — the changed field `z` is simply unmapped, so the denormalized
change tree has no keys. -/
theorem c2_counterexample :
    buildPatchPayload (.obj [("z", .num 1)]) (.obj [("z", .num 2)]) (.obj [("a", .str "b")]) {} =
      .ok none ∧
    diff (.obj [("z", .num 1)]) (.obj [("z", .num 2)]) {} = .ok (.obj [("z", .num 2)]) ∧
    Value.obj [("z", .num 2)] ≠ .obj [] := by
  refine ⟨by decide, by decide, by decide⟩

/-- C2 (amended): with no validator, `buildPatchPayload` returns the
no-payload sentinel iff the two forms have equal JSON serializations or
the patch-denormalized change tree has zero keys.  (`diff = {}` still
implies the sentinel, but the sentinel does not imply `diff = {}`.) -/
theorem c2_patch_sentinel_iff (i c m : Value)
    (tr : List (String × (Value → Value → Value))) (t p : Value)
    (hd : diff i c {} = .ok t)
    (hp : denormalizeForPatch t m { transform := tr } = .ok p) :
    (buildPatchPayload i c m { transform := tr } = .ok none ↔
      (isEqual i c = true ∨ ownKeys p = [])) := by
  have hval : buildPatchPayload i c m { transform := tr } =
      if isEqual i c = true then .ok none
      else .ok (if (ownKeys p).length > 0 then some p else none) := by
    unfold buildPatchPayload
    by_cases he : isEqual i c = true
    · simp [hasChanges, he]
    · simp only [hasChanges, he, Bool.not_false, if_false, Bool.not_eq_true', if_neg]
      rw [hd]
      simp only [Except.bind]
      rw [hp]
      simp [Except.map]
  rw [hval]
  by_cases he : isEqual i c = true
  · simp [he]
  · simp only [he, if_false, false_or]
    cases hk : ownKeys p with
    | nil => simp [hk]
    | cons k ks => simp [hk]

/-- Witness for the amended C2 at a concrete input: equal forms give the
sentinel. -/
theorem c2_patch_sentinel_iff_witness :
    buildPatchPayload (.obj [("a", .num 1)]) (.obj [("a", .num 1)])
      (.obj [("a", .str "fa")]) {} = .ok none :=
  (c2_patch_sentinel_iff (.obj [("a", .num 1)]) (.obj [("a", .num 1)])
      (.obj [("a", .str "fa")]) [] (.obj []) (.obj [])
      (by decide) (by decide)).mpr (Or.inl (by decide))

/-- C4's handle: mapping `{x:'fx'}`, defaults `{a:1, b:2}` (exactly what
the constructor builds from that configuration). -/
def c4Handle : Mapper :=
  ⟨.obj [("x", .str "fx")], .obj [("fx", .str "x")],
   .obj [("a", .num 1), ("b", .num 2)], .obj mapperDefaultOptions⟩

/-- C4's overrides record. -/
def c4Overrides : Value := .obj [("defaults", .obj [("a", .num 9)])]

/-- C4, counterexample: `clone` does not deep-merge.  The handle's
defaults are `{a:1, b:2}` and the overrides carry `defaults: {a:9}`;
the clone's defaults are `{a:9}` — the `b` entry is gone — while the
deep-merge of the overrides over the configuration keeps
`{a:9, b:2}`.  The clone's configuration therefore differs from the
deep-merge the claim promises. -/
theorem c4_counterexample :
    mkMapper (.obj [("apiToForm", .obj [("x", .str "fx")]),
      ("defaults", .obj [("a", .num 1), ("b", .num 2)])]) = .ok c4Handle ∧
    c4Handle.clone c4Overrides =
      .ok ⟨.obj [("x", .str "fx")], .obj [("fx", .str "x")],
        .obj [("a", .num 9)], .obj mapperDefaultOptions⟩ ∧
    getField (deepMerge c4Handle.configValue c4Overrides) "defaults" =
      .obj [("a", .num 9), ("b", .num 2)] ∧
    (c4Handle.clone c4Overrides).map Mapper.configValue ≠
      .ok (deepMerge c4Handle.configValue c4Overrides) := by
  refine ⟨by decide, by decide, by decide, by decide⟩

/-- C4 (amended): `clone` replaces each overridden top-level
configuration entry wholesale (no recursion into records), carries the
un-overridden entries over unchanged, and re-merges `options` one level
with the constructor's built-in option defaults; being a pure
construction, it leaves the original handle's configuration untouched.
Stated for an overrides record that overrides `defaults` (the entry the
counterexample exercises) and leaves the mapping entries alone. -/
theorem c4_clone_shallow_override (m : Mapper) (ofs : List (String × Value)) (d : Value)
    (hnd : (ofs.map Prod.fst).Nodup)
    (hA : "apiToForm" ∉ ofs.map Prod.fst) (hF : "formToApi" ∉ ofs.map Prod.fst)
    (hO : "options" ∉ ofs.map Prod.fst)
    (hd : ("defaults", d) ∈ ofs) (hdu : d ≠ .undef)
    (hTA : truthy m.apiToFormMapping = true) (hKA : ownKeys m.apiToFormMapping ≠ [])
    (hTF : truthy m.formToApiMapping = true) (hOU : m.options ≠ .undef) :
    m.clone (.obj ofs) =
      .ok ⟨m.apiToFormMapping, m.formToApiMapping, d,
        objLiteralSpread mapperDefaultOptions m.options⟩ := by
  have hbase : ∃ fs, Value.obj [("apiToForm", m.apiToFormMapping),
      ("formToApi", m.formToApiMapping), ("defaults", m.defaults),
      ("options", m.options)] = .obj fs := ⟨_, rfl⟩
  unfold Mapper.clone objLiteralSpread
  have hga : getField (((spreadFields (Value.obj ofs))).foldl
      (fun acc kv => setField acc kv.1 kv.2)
      (.obj [("apiToForm", m.apiToFormMapping), ("formToApi", m.formToApiMapping),
        ("defaults", m.defaults), ("options", m.options)])) "apiToForm" =
      m.apiToFormMapping := by
    rw [show spreadFields (Value.obj ofs) = ofs from rfl,
      foldl_setField_not_mem ofs "apiToForm" _ hbase hA]
    simp [getField, List.find?]
  have hgf : getField (((spreadFields (Value.obj ofs))).foldl
      (fun acc kv => setField acc kv.1 kv.2)
      (.obj [("apiToForm", m.apiToFormMapping), ("formToApi", m.formToApiMapping),
        ("defaults", m.defaults), ("options", m.options)])) "formToApi" =
      m.formToApiMapping := by
    rw [show spreadFields (Value.obj ofs) = ofs from rfl,
      foldl_setField_not_mem ofs "formToApi" _ hbase hF]
    simp [getField, List.find?]
  have hgo : getField (((spreadFields (Value.obj ofs))).foldl
      (fun acc kv => setField acc kv.1 kv.2)
      (.obj [("apiToForm", m.apiToFormMapping), ("formToApi", m.formToApiMapping),
        ("defaults", m.defaults), ("options", m.options)])) "options" =
      m.options := by
    rw [show spreadFields (Value.obj ofs) = ofs from rfl,
      foldl_setField_not_mem ofs "options" _ hbase hO]
    simp [getField, List.find?]
  have hgd : getField (((spreadFields (Value.obj ofs))).foldl
      (fun acc kv => setField acc kv.1 kv.2)
      (.obj [("apiToForm", m.apiToFormMapping), ("formToApi", m.formToApiMapping),
        ("defaults", m.defaults), ("options", m.options)])) "defaults" = d := by
    rw [show spreadFields (Value.obj ofs) = ofs from rfl]
    exact foldl_setField_mem ofs "defaults" d _ hbase hnd hd
  unfold mkMapper
  rw [getFieldD_of_ne_undef _ _ _ (by rw [hga]; exact truthy_ne_undef _ hTA), hga]
  rw [if_neg (by simp [hTA, hKA])]
  rw [getFieldD_of_ne_undef _ _ _ (by rw [hgf]; exact truthy_ne_undef _ hTF), hgf]
  rw [getFieldD_of_ne_undef _ _ _ (by rw [hgd]; exact hdu), hgd]
  rw [getFieldD_of_ne_undef _ _ _ (by rw [hgo]; exact hOU), hgo]
  simp [hTF, objLiteralSpread]

theorem digit_ne (c x : Char) (h : isDigitCh c = true) (hx : isDigitCh x = false) :
    c ≠ x := fun he => by rw [he] at h; rw [h] at hx; cases hx

theorem isDigitCh_not_ws (c : Char) (h : isDigitCh c = true) : isJsWs c = false := by
  by_contra hw
  have hw' : isJsWs c = true := by
    cases hww : isJsWs c
    · exact absurd hww hw
    · rfl
  simp only [isJsWs, Bool.or_eq_true, decide_eq_true_eq] at hw'
  simp only [or_assoc] at hw'
  simp only [isDigitCh, Bool.and_eq_true, decide_eq_true_eq] at h
  obtain ⟨h0, h9⟩ := h
  rcases hw' with h' | h' | h' | h' | h' | h' | h' | h' <;> subst h' <;>
    revert h0 h9 <;> decide

theorem dropWhile_no_ws (l : List Char) (h : ∀ c ∈ l, isJsWs c = false) :
    l.dropWhile isJsWs = l := by
  cases l with
  | nil => rfl
  | cons c cs =>
      exact List.dropWhile_cons_of_neg (by simp [h c (List.mem_cons_self c cs)])

theorem trimJs_no_ws (l : List Char) (h : ∀ c ∈ l, isJsWs c = false) : trimJs l = l := by
  unfold trimJs
  rw [dropWhile_no_ws l h, dropWhile_no_ws l.reverse
    (fun c hc => h c (List.mem_reverse.mp hc)), List.reverse_reverse]

theorem trimJs_front (l₁ l₂ : List Char) (h : ∀ c ∈ l₁, isJsWs c = false) (hne : l₁ ≠ []) :
    trimJs (l₁ ++ l₂) = l₁ ++ (l₂.reverse.dropWhile isJsWs).reverse := by
  unfold trimJs
  have h1 : (l₁ ++ l₂).dropWhile isJsWs = l₁ ++ l₂ := by
    cases l₁ with
    | nil => exact absurd rfl hne
    | cons c cs =>
        exact List.dropWhile_cons_of_neg (by simp [h c (List.mem_cons_self c cs)])
  rw [h1, List.reverse_append, List.dropWhile_append]
  split
  · next hempty =>
      have h2 : l₁.reverse.dropWhile isJsWs = l₁.reverse :=
        dropWhile_no_ws _ (fun c hc => h c (List.mem_reverse.mp hc))
      rw [h2, List.reverse_reverse]
      have : l₂.reverse.dropWhile isJsWs = [] := List.isEmpty_iff.mp hempty
      rw [this]
      simp
  · rw [List.reverse_append, List.reverse_reverse]

theorem takeWhile_all {p : Char → Bool} : ∀ (l : List Char), (∀ c ∈ l, p c = true) →
    l.takeWhile p = l
  | [], _ => rfl
  | c :: cs, h => by
      rw [List.takeWhile_cons_of_pos (h c (List.mem_cons_self c cs)),
        takeWhile_all cs (fun c hc => h c (List.mem_cons_of_mem _ hc))]

/-- `Number()` of a non-empty unsigned digit string is its value. -/
theorem jsParseNumber_digits (d : Char) (ds : List Char)
    (hd : isDigitCh d = true) (hds : ∀ c ∈ ds, isDigitCh c = true) :
    jsParseNumber (String.mk (d :: ds)) = .fin (digitsToNat (d :: ds)) := by
  have hall : ∀ c ∈ d :: ds, isDigitCh c = true := by
    intro c hc
    rcases List.mem_cons.mp hc with hc | hc
    · exact hc ▸ hd
    · exact hds c hc
  have htrim : trimJs (String.mk (d :: ds)).toList = d :: ds :=
    trimJs_no_ws _ (fun c hc => isDigitCh_not_ws c (hall c hc))
  have hdec : parseDecimalCore (d :: ds) = some ((digitsToNat (d :: ds) : ℚ)) := by
    unfold parseDecimalCore
    have hsign : (match d :: ds with
        | '+' :: rest => (false, rest)
        | '-' :: rest => (true, rest)
        | _ => (false, d :: ds)) = (false, d :: ds) := by
      have h1 : d ≠ '+' := digit_ne d '+' hd (by decide)
      have h2 : d ≠ '-' := digit_ne d '-' hd (by decide)
      split
      · next heq => rw [List.cons.injEq] at heq; exact absurd heq.1 h1
      · next heq => rw [List.cons.injEq] at heq; exact absurd heq.1 h2
      · rfl
    rw [hsign]
    simp only [takeWhile_all (d :: ds) hall, List.drop_length, List.isEmpty_nil,
      Bool.and_self, List.takeWhile_nil, List.length_nil, List.drop_nil]
    rw [if_neg (by simp)]
    simp [ratOfNat_eq_cast]
  unfold jsParseNumber
  rw [htrim]
  unfold parseJsNum
  have hInf : d :: ds ≠ "Infinity".toList := by
    intro he
    rw [show "Infinity".toList = 'I' :: "nfinity".toList from rfl, List.cons.injEq] at he
    exact absurd (he.1 ▸ hd) (by decide)
  have hInfP : d :: ds ≠ "+Infinity".toList := by
    intro he
    rw [show "+Infinity".toList = '+' :: "Infinity".toList from rfl, List.cons.injEq] at he
    exact absurd (he.1 ▸ hd) (by decide)
  have hInfN : d :: ds ≠ "-Infinity".toList := by
    intro he
    rw [show "-Infinity".toList = '-' :: "Infinity".toList from rfl, List.cons.injEq] at he
    exact absurd (he.1 ▸ hd) (by decide)
  rw [if_neg (by simp : ¬ (d :: ds = ([] : List Char)))]
  rw [if_neg (by
    simp only [Bool.or_eq_true, decide_eq_true_eq]
    rintro (h' | h')
    exacts [hInf h', hInfP h'])]
  rw [if_neg hInfN]
  cases ds with
  | nil =>
      split
      · rename_i x rest' heq
        rw [List.cons.injEq] at heq
        exact absurd heq.2 (by simp)
      · rw [hdec]; rfl
  | cons d2 rest =>
      have hd2 : isDigitCh d2 = true := hds d2 (List.mem_cons_self _ _)
      split
      · rename_i x rest' heq
        rw [List.cons.injEq, List.cons.injEq] at heq
        obtain ⟨h0, hx, -⟩ := heq
        subst hx
        rw [if_neg (by
            simp only [Bool.or_eq_true, decide_eq_true_eq]
            rintro (h' | h') <;> exact absurd (h' ▸ hd2) (by decide)),
          if_neg (by
            simp only [Bool.or_eq_true, decide_eq_true_eq]
            rintro (h' | h') <;> exact absurd (h' ▸ hd2) (by decide)),
          if_neg (by
            simp only [Bool.or_eq_true, decide_eq_true_eq]
            rintro (h' | h') <;> exact absurd (h' ▸ hd2) (by decide))]
        rw [hdec]
        rfl
      · rw [hdec]; rfl

/-- `Number()` of a minus sign and digits is the negated value. -/
theorem jsParseNumber_neg_digits (d : Char) (ds : List Char)
    (hd : isDigitCh d = true) (hds : ∀ c ∈ ds, isDigitCh c = true) :
    jsParseNumber (String.mk ('-' :: d :: ds)) = .fin (-(digitsToNat (d :: ds) : ℚ)) := by
  have hall : ∀ c ∈ d :: ds, isDigitCh c = true := by
    intro c hc
    rcases List.mem_cons.mp hc with hc | hc
    · exact hc ▸ hd
    · exact hds c hc
  have htrim : trimJs (String.mk ('-' :: d :: ds)).toList = '-' :: d :: ds := by
    refine trimJs_no_ws _ ?_
    intro c hc
    rcases List.mem_cons.mp hc with hc | hc
    · subst hc; rfl
    · exact isDigitCh_not_ws c (hall c hc)
  have hdec : parseDecimalCore ('-' :: d :: ds) = some (-(digitsToNat (d :: ds) : ℚ)) := by
    unfold parseDecimalCore
    simp only [takeWhile_all (d :: ds) hall, List.drop_length, List.isEmpty_nil,
      List.takeWhile_nil, List.length_nil, List.drop_nil]
    rw [if_neg (by simp)]
    simp [ratOfNat_eq_cast]
  unfold jsParseNumber
  rw [htrim]
  unfold parseJsNum
  have hInf : '-' :: d :: ds ≠ "Infinity".toList := by
    intro he
    rw [show "Infinity".toList = 'I' :: "nfinity".toList from rfl, List.cons.injEq] at he
    exact absurd he.1 (by decide)
  have hInfP : '-' :: d :: ds ≠ "+Infinity".toList := by
    intro he
    rw [show "+Infinity".toList = '+' :: "Infinity".toList from rfl, List.cons.injEq] at he
    exact absurd he.1 (by decide)
  have hInfN : '-' :: d :: ds ≠ "-Infinity".toList := by
    intro he
    rw [show "-Infinity".toList = '-' :: 'I' :: "nfinity".toList from rfl,
      List.cons.injEq, List.cons.injEq] at he
    exact absurd (he.2.1 ▸ hd) (by decide)
  rw [if_neg (by simp : ¬ ('-' :: d :: ds = ([] : List Char)))]
  rw [if_neg (by
    simp only [Bool.or_eq_true, decide_eq_true_eq]
    rintro (h' | h')
    exacts [hInf h', hInfP h'])]
  rw [if_neg hInfN]
  split
  · rename_i x rest' heq
    rw [List.cons.injEq] at heq
    exact absurd heq.1 (by decide)
  · rw [hdec]; rfl

/-- A decimal literal cannot continue with a dash after leading digits:
the strict decimal grammar fails on date-shaped strings. -/
theorem parseDecimalCore_dash (a b c d : Char) (r : List Char)
    (ha : isDigitCh a = true) (hb : isDigitCh b = true)
    (hc : isDigitCh c = true) (hd4 : isDigitCh d = true) :
    parseDecimalCore (a :: b :: c :: d :: '-' :: r) = none := by
  unfold parseDecimalCore
  have hsign : (match a :: b :: c :: d :: '-' :: r with
      | '+' :: rest => (false, rest)
      | '-' :: rest => (true, rest)
      | _ => (false, a :: b :: c :: d :: '-' :: r)) =
      (false, a :: b :: c :: d :: '-' :: r) := by
    split
    · rename_i heq; rw [List.cons.injEq] at heq
      exact absurd (heq.1 ▸ ha) (by decide)
    · rename_i heq; rw [List.cons.injEq] at heq
      exact absurd (heq.1 ▸ ha) (by decide)
    · rfl
  rw [hsign]
  simp only [List.takeWhile_cons_of_pos ha, List.takeWhile_cons_of_pos hb,
    List.takeWhile_cons_of_pos hc, List.takeWhile_cons_of_pos hd4,
    List.takeWhile_cons_of_neg (by decide : ¬ isDigitCh '-' = true)]
  rfl

/-- `Number()` is `NaN` on any string with the ISO date-time prefix. -/
theorem jsParseNumber_iso_nan (s : String) (h : isoTest s = true) :
    jsParseNumber s = .nan := by
  unfold isoTest at h
  split at h
  case h_2 => cases h
  case h_1 a b c d e f g h8 tl heq =>
    simp only [Bool.and_eq_true] at h
    obtain ⟨⟨⟨⟨⟨⟨⟨ha, hb⟩, hc⟩, hd4⟩, he⟩, hf⟩, hg⟩, hh8⟩ := h
    unfold jsParseNumber
    rw [heq]
    rw [show a :: b :: c :: d :: '-' :: e :: f :: '-' :: g :: h8 :: 'T' :: tl =
      [a, b, c, d, '-'] ++ (e :: f :: '-' :: g :: h8 :: 'T' :: tl) from rfl]
    rw [trimJs_front [a, b, c, d, '-'] _ (by
      intro x hx
      simp only [List.mem_cons, List.mem_singleton, List.not_mem_nil, or_false] at hx
      rcases hx with rfl | rfl | rfl | rfl | rfl
      · exact isDigitCh_not_ws _ ha
      · exact isDigitCh_not_ws _ hb
      · exact isDigitCh_not_ws _ hc
      · exact isDigitCh_not_ws _ hd4
      · rfl) (by simp)]
    set r' := ((e :: f :: '-' :: g :: h8 :: 'T' :: tl).reverse.dropWhile isJsWs).reverse
      with hr'
    rw [show [a, b, c, d, '-'] ++ r' = a :: b :: c :: d :: '-' :: r' from rfl]
    unfold parseJsNum
    rw [if_neg (by simp)]
    have hInf : a :: b :: c :: d :: '-' :: r' ≠ "Infinity".toList := by
      intro hee
      rw [show "Infinity".toList = 'I' :: "nfinity".toList from rfl, List.cons.injEq] at hee
      exact absurd (hee.1 ▸ ha) (by decide)
    have hInfP : a :: b :: c :: d :: '-' :: r' ≠ "+Infinity".toList := by
      intro hee
      rw [show "+Infinity".toList = '+' :: "Infinity".toList from rfl, List.cons.injEq] at hee
      exact absurd (hee.1 ▸ ha) (by decide)
    have hInfN : a :: b :: c :: d :: '-' :: r' ≠ "-Infinity".toList := by
      intro hee
      rw [show "-Infinity".toList = '-' :: "Infinity".toList from rfl, List.cons.injEq] at hee
      exact absurd (hee.1 ▸ ha) (by decide)
    rw [if_neg (by
      simp only [Bool.or_eq_true, decide_eq_true_eq]
      rintro (h' | h')
      exacts [hInf h', hInfP h'])]
    rw [if_neg hInfN]
    have hdec := parseDecimalCore_dash a b c d r' ha hb hc hd4
    split
    · rename_i x rest' heq2
      rw [List.cons.injEq, List.cons.injEq] at heq2
      obtain ⟨h0, hx, -⟩ := heq2
      subst hx
      rw [if_neg (by
          simp only [Bool.or_eq_true, decide_eq_true_eq]
          rintro (h' | h') <;> exact absurd (h' ▸ hb) (by decide)),
        if_neg (by
          simp only [Bool.or_eq_true, decide_eq_true_eq]
          rintro (h' | h') <;> exact absurd (h' ▸ hb) (by decide)),
        if_neg (by
          simp only [Bool.or_eq_true, decide_eq_true_eq]
          rintro (h' | h') <;> exact absurd (h' ▸ hb) (by decide))]
      rw [hdec]
      rfl
    · rw [hdec]; rfl

/-- C5: type coercion during normalize applies only to string values
and tries its rules in order, first match winning.  The conjuncts:
(1) non-strings pass through unchanged; (2) a strict numeric string —
optional minus sign, then decimal digits — becomes the corresponding
number; (3) exactly `"true"`/`"false"` become booleans (the numeric rule
does not fire on them); (4) a string with an ISO-8601 date-time prefix
that parses to a valid timestamp becomes a date value (the numeric rule
cannot fire on such a string); (5) a string matching none of the rules
passes through unchanged — `coerceType` is a total function, so
coercion never throws; and (6) the claim's concrete example:
`normalize({count:'42', flag:'true'}, {count:'count', flag:'flag'})`
gives a number and a boolean. -/
theorem c5_type_coercion :
    (∀ v : Value, v.typeOf ≠ "string" → coerceType v = v) ∧
    ((∀ (d : Char) (ds : List Char), isDigitCh d = true →
        (∀ c ∈ ds, isDigitCh c = true) →
        coerceType (.str (String.mk (d :: ds))) = .num ((digitsToNat (d :: ds) : ℚ))) ∧
      (∀ (d : Char) (ds : List Char), isDigitCh d = true →
        (∀ c ∈ ds, isDigitCh c = true) →
        coerceType (.str (String.mk ('-' :: d :: ds))) =
          .num (-(digitsToNat (d :: ds) : ℚ)))) ∧
    (coerceType (.str "true") = .bool true ∧ coerceType (.str "false") = .bool false) ∧
    (∀ (s : String) (t : Int), isoTest s = true → jsDateParse s = some t →
      coerceType (.str s) = .date t) ∧
    (∀ s : String, jsParseNumber s = .nan → s ≠ "true" → s ≠ "false" →
      isoTest s = false → coerceType (.str s) = .str s) ∧
    normalize (.obj [("count", .str "42"), ("flag", .str "true")])
      (.obj [("count", .str "count"), ("flag", .str "flag")]) {} =
      .obj [("count", .num 42), ("flag", .bool true)] := by
  refine ⟨?_, ⟨?_, ?_⟩, ⟨by decide, by decide⟩, ?_, ?_, by decide⟩
  · intro v hv
    cases v <;> first | rfl | exact absurd rfl hv
  · intro d ds hd hds
    have hall : ∀ c ∈ d :: ds, isDigitCh c = true := by
      intro c hc
      rcases List.mem_cons.mp hc with hc | hc
      · exact hc ▸ hd
      · exact hds c hc
    have hp := jsParseNumber_digits d ds hd hds
    have htr : trimStr (String.mk (d :: ds)) = String.mk (d :: ds) := by
      unfold trimStr
      rw [show (String.mk (d :: ds)).toList = d :: ds from rfl,
        trimJs_no_ws _ (fun c hc => isDigitCh_not_ws c (hall c hc))]
    simp only [coerceType, hp]
    rw [if_pos (by
      rw [htr]
      exact fun he => List.cons_ne_nil d ds (congrArg String.data he))]
  · intro d ds hd hds
    have hall : ∀ c ∈ d :: ds, isDigitCh c = true := by
      intro c hc
      rcases List.mem_cons.mp hc with hc | hc
      · exact hc ▸ hd
      · exact hds c hc
    have hp := jsParseNumber_neg_digits d ds hd hds
    have htr : trimStr (String.mk ('-' :: d :: ds)) = String.mk ('-' :: d :: ds) := by
      unfold trimStr
      refine congrArg String.mk (trimJs_no_ws _ ?_)
      intro c hc
      rcases List.mem_cons.mp hc with hc | hc
      · subst hc; rfl
      · exact isDigitCh_not_ws c (hall c hc)
    simp only [coerceType, hp]
    rw [if_pos (by
      rw [htr]
      exact fun he => List.cons_ne_nil '-' (d :: ds) (congrArg String.data he))]
  · intro s t hiso hdate
    have hnan := jsParseNumber_iso_nan s hiso
    have htrue : s ≠ "true" := by
      intro he; rw [he] at hiso; exact absurd hiso (by decide)
    have hfalse : s ≠ "false" := by
      intro he; rw [he] at hiso; exact absurd hiso (by decide)
    simp only [coerceType, hnan]
    unfold coerceType.coerceTypeRest
    rw [if_neg htrue, if_neg hfalse, if_pos hiso, hdate]
  · intro s hn htrue hfalse hiso
    simp only [coerceType, hn]
    unfold coerceType.coerceTypeRest
    rw [if_neg htrue, if_neg hfalse, if_neg (by simp [hiso])]

/-- Witness for C5 at concrete inputs: the numeric rule on `"42"` and
the date rule on an ISO timestamp string. -/
theorem c5_type_coercion_witness :
    coerceType (.str (String.mk ['4', '2'])) = .num ((digitsToNat ['4', '2'] : ℚ)) ∧
    coerceType (.str "2024-01-15T10:30:00Z") = .date 1705314600000 :=
  ⟨c5_type_coercion.2.1.1 '4' ['2'] (by decide) (by decide),
   c5_type_coercion.2.2.2.1 "2024-01-15T10:30:00Z" 1705314600000 (by decide) (by decide)⟩

/-- Witness for the amended C4 at the counterexample's handle and
overrides. -/
theorem c4_clone_shallow_override_witness :
    c4Handle.clone c4Overrides =
      .ok ⟨c4Handle.apiToFormMapping, c4Handle.formToApiMapping, .obj [("a", .num 9)],
        objLiteralSpread mapperDefaultOptions c4Handle.options⟩ :=
  c4_clone_shallow_override c4Handle [("defaults", .obj [("a", .num 9)])]
    (.obj [("a", .num 9)]) (by decide) (by decide) (by decide) (by decide)
    (by decide) (by decide) (by decide) (by decide) (by decide) (by decide)

/-- C7, counterexample: the original's key `gone` (inside the record
under the dotted top-level key `x.g`) is absent from the current tree,
so the claim demands an explicit removal entry at its path `x.g.gone` —
but the change tree ends as `{x: undefined}`: the later deletion entry
for the top-level key `x` is written through `setChangePath("x")`, which
overwrites the dot-expanded subtree `{x:{g:{gone:undefined}}}` holding
the marker, so the removal of `gone` is silently lost (no entry remains
at its path). -/
theorem c7_counterexample :
    diff (.obj [("x.g", .obj [("gone", .num 1), ("keep", .num 2)]), ("x", .num 7)])
        (.obj [("x.g", .obj [("keep", .num 2)])]) {} = .ok (.obj [("x", .undef)]) ∧
    fieldEntry (getNestedValue (.obj [("x", .undef)]) "x.g") "gone" = none := by
  exact ⟨by decide, by decide⟩

/-- C7, amended: for top-level records whose original keys are non-empty
and dot-free, every key present in `original` but absent from `current`
ends with an explicit removal entry (the `undefined` absence marker)
under that key in the change tree — deletions are observable.  (With
dotted keys the marker can be clobbered; see the counterexample.)  The
second conjunct is the claim's concrete example:
`diff({a:1,b:2},{a:1})` reports `b` as an explicit removal. -/
theorem c7_deleted_keys_marked :
    (∀ (ofs cfs : List (String × Value)) (k : String) (t : Value),
        (∀ k2 ∈ ofs.map Prod.fst, k2 ≠ "" ∧ '.' ∉ k2.toList) →
        k ∈ ofs.map Prod.fst → k ∉ cfs.map Prod.fst →
        diff (.obj ofs) (.obj cfs) {} = .ok t →
        fieldEntry t k = some .undef) ∧
    diff (.obj [("a", .num 1), ("b", .num 2)]) (.obj [("a", .num 1)]) {} =
      .ok (.obj [("b", .undef)]) := by
  refine ⟨?_, by decide⟩
  intro ofs cfs k t hkeys hin hout h
  simp only [diff, computeDiff] at h
  split at h
  · rename_i heq; exact absurd heq (by decide)
  · split at h
    · rename_i heq
      injection heq with he
      subst he
      exact absurd hin hout
    · split at h
      · rename_i heq; exact absurd rfl heq
      · split at h
        · rename_i heq; simp [typeOf] at heq
        · split at h
          · split at h
            · rename_i heq
              rw [show (Value.obj ofs).isPlainObject = true from rfl] at heq
              exact absurd heq (by decide)
            · obtain ⟨m, hm1, hm2⟩ := exceptSeq_ok _ _ _ h
              have hmshape : ∃ gs, m = .obj gs :=
                foldlM_except_inv (fun v => ∃ gs, v = .obj gs) _ _ _ ⟨[], rfl⟩
                  (fun b a hb r hr => computeDiff_shape true [] _ _ _ _ b r hb hr) m hm1
              refine foldlM_marker (ownKeys (.obj cfs)) _ k hout
                (ownKeys (.obj ofs)) m ?_ hin hmshape t hm2
              intro fs a ha
              by_cases hc : (ownKeys (.obj cfs)).contains a = true
              · rw [hc]
                simp [pure, Except.pure]
              · rw [Bool.of_not_eq_true hc]
                simp only [Bool.false_eq_true, if_false]
                rw [if_neg (fun hne => hne rfl)]
                exact setChangePath_single fs a .undef (hkeys a ha).1 (hkeys a ha).2
          · rename_i heq; exact absurd rfl heq

/-- Witness for the amended C7 at the claim's example: `b` carries the
explicit absence marker. -/
theorem c7_deleted_keys_marked_witness :
    fieldEntry (Value.obj [("b", Value.undef)]) "b" = some .undef :=
  c7_deleted_keys_marked.1 [("a", .num 1), ("b", .num 2)] [("a", .num 1)] "b"
    (.obj [("b", .undef)]) (by decide) (by decide) (by decide) (by decide)

/-- C8, counterexample: with deep array comparison disabled, the claim
says the differ replaces the whole sequence with the current one — but
the code only writes when the JSON serializations differ.  `[undefined]`
and `[null]` are different sequences that serialize identically (both
`"[null]"`), so the diff is empty and no replacement is emitted. -/
theorem c8_counterexample :
    (Value.arr [.undef] ≠ .arr [.null]) ∧
    jsonStringify (.arr [.undef]) = jsonStringify (.arr [.null]) ∧
    diff (.obj [("items", .arr [.undef])]) (.obj [("items", .arr [.null])])
      ⟨false, true, []⟩ = .ok (.obj []) :=
  ⟨by decide, by decide, by decide⟩

/-- C8, amended: (1) the claim's concrete example — a length change
forces whole-sequence replacement; (2) with deep comparison on, a length
mismatch at any non-ignored path replaces the whole sequence through one
`setChangePath` write and emits no per-index entries; (3) likewise when
the original side is not actually a sequence (of object `typeof`, so the
earlier type-change branch does not fire first); (4) with deep
comparison off, the branch replaces the sequence if and only if the JSON
serializations differ — not unconditionally, which is the correction to
the claim. -/
theorem c8_array_replacement :
    diff (.obj [("items", .arr [.num 1, .num 2])])
      (.obj [("items", .arr [.num 1, .num 2, .num 3])]) {} =
      .ok (.obj [("items", .arr [.num 1, .num 2, .num 3])]) ∧
    (∀ (ig : List String) (fuel : Nat) (oldXs newXs : List Value) (p : String)
        (acc : Value), ig.contains p = false → oldXs.length ≠ newXs.length →
      computeDiff true ig (fuel + 1) (.arr oldXs) (.arr newXs) p acc =
        setChangePath acc p (.arr newXs)) ∧
    (∀ (ig : List String) (fuel : Nat) (old : Value) (newXs : List Value) (p : String)
        (acc : Value), ig.contains p = false → (∀ xs, old ≠ .arr xs) →
      typeOf old = "object" →
      computeDiff true ig (fuel + 1) old (.arr newXs) p acc =
        setChangePath acc p (.arr newXs)) ∧
    (∀ (ig : List String) (fuel : Nat) (old : Value) (newXs : List Value) (p : String)
        (acc : Value), ig.contains p = false → old ≠ .arr newXs →
      typeOf old = "object" →
      computeDiff false ig (fuel + 1) old (.arr newXs) p acc =
        (if jsonStringify old ≠ jsonStringify (.arr newXs) then
          setChangePath acc p (.arr newXs) else .ok acc)) := by
  refine ⟨by decide, ?_, ?_, ?_⟩
  · intro ig fuel oldXs newXs p acc hig hlen
    simp only [computeDiff]
    rw [if_neg (show ¬ig.contains p = true from fun hc => by
      rw [hig] at hc; cases hc)]
    rw [if_neg (show ¬(Value.arr oldXs = Value.arr newXs) from
      fun he => hlen (by cases he; rfl))]
    rw [if_neg (show ¬(Value.arr oldXs).typeOf ≠ (Value.arr newXs).typeOf from
      fun hne => hne rfl)]
    rw [if_neg (show ¬((decide ((Value.arr newXs).typeOf ≠ "object") ||
      decide (Value.arr newXs = Value.null)) = true) from by simp [typeOf])]
    simp only [Bool.not_true, Bool.false_eq_true, if_false]
    rw [if_pos hlen]
  · intro ig fuel old newXs p acc hig hna ht
    simp only [computeDiff]
    rw [if_neg (show ¬ig.contains p = true from fun hc => by
      rw [hig] at hc; cases hc)]
    rw [if_neg (show ¬(old = Value.arr newXs) from hna newXs)]
    rw [if_neg (show ¬old.typeOf ≠ (Value.arr newXs).typeOf from
      fun hne => hne (ht.trans rfl))]
    rw [if_neg (show ¬((decide ((Value.arr newXs).typeOf ≠ "object") ||
      decide (Value.arr newXs = Value.null)) = true) from by simp [typeOf])]
    simp only [Bool.not_true, Bool.false_eq_true, if_false]
  · intro ig fuel old newXs p acc hig hne ht
    simp only [computeDiff]
    rw [if_neg (show ¬ig.contains p = true from fun hc => by
      rw [hig] at hc; cases hc)]
    rw [if_neg hne]
    rw [if_neg (show ¬old.typeOf ≠ (Value.arr newXs).typeOf from
      fun hh => hh (ht.trans rfl))]
    rw [if_neg (show ¬((decide ((Value.arr newXs).typeOf ≠ "object") ||
      decide (Value.arr newXs = Value.null)) = true) from by simp [typeOf])]
    simp only [Bool.not_false, if_true]

/-- C9, counterexample: the claim says a scalar change at index `i` of
the equal-length sequences at key `k` is recorded under the single
literal record key `k[i]` in the parent record.  For the dotted key
`a.b` the written path `a.b[0]` is dot-split by `setChangePath`, so the
change nests under `a` as `{a:{"b[0]": v}}`: no literal `a.b[0]` entry
exists in the parent record. -/
theorem c9_counterexample :
    diff (.obj [("a.b", .arr [.num 1])]) (.obj [("a.b", .arr [.num 2])]) {} =
      .ok (.obj [("a", .obj [("b[0]", .num 2)])]) ∧
    fieldEntry (.obj [("a", .obj [("b[0]", .num 2)])]) "a.b[0]" = none :=
  ⟨by decide, by decide⟩

/-- C9, amended: with deep comparison on, equal-length sequences at a
dot-free path `k` differing exactly at one index `i` (the new element
primitive or of changed `typeof`) produce exactly one write: the literal
bracket key `k[i]` set in the parent change record — not a nested
sequence at `k`.  The second conjunct shows this end to end at the top
level; the third shows bracket expansion into an actual array when the
bracket segment is non-final in a deeper path (`a[0].x`). -/
theorem c9_literal_bracket_key :
    (∀ (k : String) (pre post : List Value) (a b : Value)
        (fs : List (String × Value)) (g : Nat),
        k ≠ "" → '.' ∉ k.toList → a ≠ b →
        (typeOf a ≠ typeOf b ∨ typeOf b ≠ "object" ∨ b = Value.null) →
        computeDiff true [] (g + 1 + 1) (.arr (pre ++ a :: post))
          (.arr (pre ++ b :: post)) k (.obj fs) =
          .ok (setField (.obj fs) (k ++ "[" ++ toString pre.length ++ "]") b)) ∧
    diff (.obj [("k", .arr [.num 1, .num 2])]) (.obj [("k", .arr [.num 1, .num 5])]) {} =
      .ok (.obj [("k[1]", .num 5)]) ∧
    diff (.obj [("a", .arr [.obj [("x", .num 1)]])])
      (.obj [("a", .arr [.obj [("x", .num 2)]])]) {} =
      .ok (.obj [("a", .arr [.obj [("x", .num 2)]])]) := by
  refine ⟨?_, by decide, by decide⟩
  intro k pre post a b fs g hk hkd hab hb
  exact c9aux_arr g k hk hkd pre post a b hab hb fs

/-- Witness for the amended C9 at a concrete instance: the change at
index 1 of the sequences at path `k` is one `setField` of the literal
bracket key `k[1]`. -/
theorem c9_literal_bracket_key_witness :
    computeDiff true [] 2 (.arr [.num 1, .num 2]) (.arr [.num 1, .num 5]) "k"
      (.obj []) = .ok (setField (.obj []) "k[1]" (.num 5)) :=
  c9_literal_bracket_key.1 "k" [.num 1] [] (.num 2) (.num 5) [] 0 (by decide)
    (by decide) (by decide) (by decide)

/-- Witness for the amended C8: the length-mismatch replacement at the
claim's example arrays, and the serialization-equality test of the
disabled-comparison branch at the counterexample's arrays. -/
theorem c8_array_replacement_witness :
    computeDiff true [] 1 (.arr [.num 1, .num 2]) (.arr [.num 1, .num 2, .num 3])
      "items" (.obj []) =
      setChangePath (.obj []) "items" (.arr [.num 1, .num 2, .num 3]) ∧
    computeDiff false [] 1 (.arr [.undef]) (.arr [.null]) "items" (.obj []) =
      (if jsonStringify (.arr [.undef]) ≠ jsonStringify (.arr [.null]) then
        setChangePath (.obj []) "items" (.arr [.null]) else .ok (.obj [])) :=
  ⟨c8_array_replacement.2.1 [] 0 [.num 1, .num 2] [.num 1, .num 2, .num 3] "items"
    (.obj []) (by decide) (by decide),
   c8_array_replacement.2.2.2 [] 0 (.arr [.undef]) [.null] "items" (.obj [])
    (by decide) (by decide) (by decide)⟩

end ApiSchemaMapper
